import Mathlib

/-!
Verification of a binary buddy memory allocator (Rust, `src/lib.rs`).

The pool state is embedded shallowly:

* Machine addresses are modelled as byte offsets from the base of the
  memory-mapped region (`base.as_ptr()` is offset `0`).  A nullable
  `*mut u8` is an `Option Nat` (`none` = null); a non-null user pointer
  returned by `malloc` is the offset of its block plus the header size.
* The in-band `Avail` headers woven through the region are a total map
  `headers : Nat → Header` from block-start offsets to the `tag`/`kval`
  fields stored there.  `MmapMut::map_anon` zero-fills the region, so the
  map of a fresh pool is constantly `⟨0, 0⟩` (tag `BLOCK_RESERVED`, kval 0).
  The `next`/`prev` link fields are represented by the free lists below.
* Each circular doubly-linked free list `avail[k]` is modelled by its
  sentinel's `tag` and `kval` fields together with the list of block
  offsets encountered from `sentinel.next` up to the sentinel again
  (`[]` = the sentinel self-loops).  Splicing a block before the sentinel
  (`add_to_avail`) is appending at the tail; unlinking a node through its
  own `next`/`prev` pointers (`remove_from_avail`) removes it from the one
  list that contains it, i.e. erases the offset from every list.
* The process-wide `errno` cell written by `set_errno(ENOMEM)` is carried
  as an extra field of the state.
* The `usize`/`u64` arithmetic involved (`kval` values, offsets) stays far
  below `2^64` for every reachable pool, so it is modelled on `Nat`.
-/

/-- Tag value `BLOCK_AVAIL`: block is available to allocate. -/
def BLOCK_AVAIL : Nat := 1

/-- Tag value `BLOCK_RESERVED`: block has been handed to the user. -/
def BLOCK_RESERVED : Nat := 0

/-- Tag value `BLOCK_UNUSED`: block is not used at all (sentinels). -/
def BLOCK_UNUSED : Nat := 3

/-- `MIN_K`: the minimum size of the buddy memory pool. -/
def MIN_K : Nat := 20

/-- `DEFAULT_K`: pool size used when the caller passes 0. -/
def DEFAULT_K : Nat := 30

/-- `MAX_K`: one larger than the largest supported order. -/
def MAX_K : Nat := 48

/-- The POSIX `ENOMEM` error code written to the ambient error channel. -/
def ENOMEM : Nat := 12

/-- `size_of::<Avail>()` on a 64-bit target: `u8` tag + padding + `usize`
kval + two pointers = 32 bytes.  The tests call this `AVAIL_SIZE`. -/
def AVAIL_SIZE : Nat := 32

/-- One more than `usize::MAX` on the 64-bit target: machine additions on
`usize` are taken modulo this. -/
def USIZE : Nat := 2 ^ 64

/-- The two error kinds of `BuddyError`. -/
inductive BuddyError where
  | NoMemory
  | CorruptedMemoryPool
deriving DecidableEq, Repr

/-- The `tag` and `kval` fields of an in-band `Avail` header. -/
structure Header where
  tag : Nat
  kval : Nat
deriving DecidableEq, Repr

/-- One entry of the `avail` table: the sentinel's own `tag` and `kval`
fields plus the blocks on its circular list, from `next` to the sentinel. -/
structure FreeList where
  tag : Nat
  kval : Nat
  blocks : List Nat
deriving DecidableEq, Repr

/-- The buddy pool state, together with the ambient `errno` cell. -/
structure BuddyPool where
  kval_m : Nat
  headers : Nat → Header
  avail : Nat → FreeList
  errno : Nat

/-- Pointwise update of a map, used for header writes. -/
def upd {α : Type} (f : Nat → α) (i : Nat) (a : α) : Nat → α :=
  fun j => if j = i then a else f j

@[simp] theorem upd_same {α : Type} (f : Nat → α) (i : Nat) (a : α) :
    upd f i a i = a := by simp [upd]

@[simp] theorem upd_ne {α : Type} (f : Nat → α) {i j : Nat} (a : α)
    (h : j ≠ i) : upd f i a j = f j := by simp [upd, h]

/-- Loop of `b_to_k`: `while bytes > 0 { bytes >>= 1; k += 1; }`. -/
def b_to_k_go (bytes k : Nat) : Nat :=
  if bytes > 0 then b_to_k_go (bytes >>> 1) (k + 1) else k
termination_by bytes
decreasing_by
  simp only [Nat.shiftRight_one]
  omega

/-- `b_to_k`: converts bytes to its equivalent K value. -/
def b_to_k (bytes : Nat) : Nat :=
  if bytes = 0 then 0 else b_to_k_go (bytes - 1) 0

namespace BuddyPool

/-- The `kval` computed by `BuddyPool::new` for a requested `size`:
default for 0, then the two clamping steps (note the source tests
`kval > MAX_K`, not `kval > MAX_K - 1`). -/
def newKval (size : Nat) : Nat :=
  let kval := if size = 0 then DEFAULT_K else b_to_k size
  let kval := if kval < MIN_K then MIN_K else kval
  if kval > MAX_K then MAX_K - 1 else kval

/-- `BuddyPool::new` (the case in which `map_anon` succeeds): a pool with
`kval_m = newKval size`, a zero-filled region and default (`Avail::new()`)
sentinels. -/
def new (size : Nat) : BuddyPool where
  kval_m := newKval size
  headers := fun _ => ⟨BLOCK_RESERVED, 0⟩
  avail := fun _ => ⟨BLOCK_UNUSED, 0, []⟩
  errno := 0

/-- `BuddyPool::init`: reset the sentinels `0..=kval_m` to empty self-loops
with their index as `kval`, then splice the single block at `base`
(offset 0) of order `kval_m` into `avail[kval_m]` and write its header. -/
def init (s : BuddyPool) : BuddyPool :=
  { s with
    avail := fun k =>
      if k ≤ s.kval_m then
        if k = s.kval_m then ⟨BLOCK_UNUSED, k, [0]⟩ else ⟨BLOCK_UNUSED, k, []⟩
      else s.avail k
    headers := upd s.headers 0 ⟨BLOCK_AVAIL, s.kval_m⟩ }

/-- `BuddyPool::buddy_calc`: XOR the offset with `1 << kval` where `kval`
is read from the block's header. -/
def buddy_calc (s : BuddyPool) (off : Nat) : Nat :=
  off ^^^ 2 ^ (s.headers off).kval

/-- `BuddyPool::add_to_avail`: splice `off` in before the sentinel of the
list for its current `kval` (tail insertion) and tag it available. -/
def add_to_avail (s : BuddyPool) (off : Nat) : BuddyPool :=
  let k := (s.headers off).kval
  { s with
    avail := upd s.avail k ⟨(s.avail k).tag, (s.avail k).kval,
      (s.avail k).blocks ++ [off]⟩
    headers := upd s.headers off ⟨BLOCK_AVAIL, k⟩ }

/-- `BuddyPool::remove_from_avail`: unlink `off` from the list containing
it (erase it from every list; it is on at most one), null its links and
tag it reserved. -/
def remove_from_avail (s : BuddyPool) (off : Nat) : BuddyPool :=
  { s with
    avail := fun k => ⟨(s.avail k).tag, (s.avail k).kval,
      ((s.avail k).blocks).erase off⟩
    headers := upd s.headers off ⟨BLOCK_RESERVED, (s.headers off).kval⟩ }

/-- `BuddyPool::split`: decrement the block's `kval`, tag it reserved,
compute the buddy with the decremented `kval`, write a fresh available
header there and insert it; the lower half `off` is returned (unchanged,
so the caller keeps using `off`). -/
def split (s : BuddyPool) (off : Nat) : BuddyPool :=
  let kval := (s.headers off).kval
  let s1 : BuddyPool :=
    { s with headers := upd s.headers off ⟨BLOCK_RESERVED, kval - 1⟩ }
  let buddy := buddy_calc s1 off
  let s2 : BuddyPool :=
    { s1 with headers := upd s1.headers buddy ⟨BLOCK_AVAIL, kval - 1⟩ }
  add_to_avail s2 buddy

/-- `BuddyPool::malloc_kval`: fail with `NoMemory` (setting `ENOMEM`) above
`kval_m`; otherwise pop the head of `avail[kval]` if the list is non-empty,
else recursively obtain a block of order `kval + 1` and split it. -/
def malloc_kval (s : BuddyPool) (kval : Nat) :
    BuddyPool × Except BuddyError Nat :=
  if kval > s.kval_m then
    ({ s with errno := ENOMEM }, .error .NoMemory)
  else
    match (s.avail kval).blocks with
    | b :: _ => (remove_from_avail s b, .ok b)
    | [] =>
      match malloc_kval s (kval + 1) with
      | (s', .ok b) => (split s' b, .ok b)
      | (s', .error e) => (s', .error e)
termination_by s.kval_m + 1 - kval
decreasing_by omega

/-- `BuddyPool::malloc`: allocate order `b_to_k (size + size_of::<Avail>())`
and return the block's offset plus the header size. -/
def malloc (s : BuddyPool) (size : Nat) :
    BuddyPool × Except BuddyError Nat :=
  match malloc_kval s (b_to_k (size + AVAIL_SIZE)) with
  | (s', .ok b) => (s', .ok (b + AVAIL_SIZE))
  | (s', .error e) => (s', .error e)

/-- `BuddyPool::malloc` with the `usize` machine arithmetic of the source's
`size + size_of::<Avail>()` made explicit: the addition wraps modulo
`2^64` (the release-build semantics; a checked build panics at exactly the
inputs where the two differ).  `malloc` above is the same function over
idealized unbounded arithmetic. -/
def malloc_usize (s : BuddyPool) (size : Nat) :
    BuddyPool × Except BuddyError Nat :=
  match malloc_kval s (b_to_k ((size + AVAIL_SIZE) % USIZE)) with
  | (s', .ok b) => (s', .ok (b + AVAIL_SIZE))
  | (s', .error e) => (s', .error e)

/-- `BuddyPool::get_avail_buddy`: `None` at top order; otherwise the buddy
offset, provided the header found there is tagged available with the same
`kval`. -/
def get_avail_buddy (s : BuddyPool) (off : Nat) : Option Nat :=
  if (s.headers off).kval = s.kval_m then none
  else
    let buddy := buddy_calc s off
    if (s.headers buddy).tag ≠ BLOCK_AVAIL then none
    else if (s.headers buddy).kval ≠ (s.headers off).kval then none
    else some buddy

/-- The coalescing loop of `BuddyPool::free_avail`, with explicit fuel.
Each iteration unlinks the available buddy and lets the lower-addressed
block survive with incremented `kval`.  The source's `while` loop has no
fuel; `free_avail` passes `kval_m + 1`, which theorem
`c9_free_coalesce_terminates` shows is never exhausted when the block's
order is at most `kval_m`. -/
def free_avail_go (s : BuddyPool) (off : Nat) : Nat → BuddyPool
  | 0 => add_to_avail s off
  | fuel + 1 =>
    match get_avail_buddy s off with
    | none => add_to_avail s off
    | some buddy =>
      let s1 := remove_from_avail s buddy
      if off < buddy then
        let s2 : BuddyPool := { s1 with
          headers := upd s1.headers off ⟨(s1.headers off).tag, (s1.headers off).kval + 1⟩ }
        free_avail_go s2 off fuel
      else
        let s2 : BuddyPool := { s1 with
          headers := upd s1.headers buddy ⟨(s1.headers buddy).tag, (s1.headers buddy).kval + 1⟩ }
        free_avail_go s2 buddy fuel

/-- `BuddyPool::free_avail`: coalesce with available buddies, then insert
the survivor into its free list. -/
def free_avail (s : BuddyPool) (off : Nat) : BuddyPool :=
  free_avail_go s off (s.kval_m + 1)

/-- `BuddyPool::free`: null is a no-op; otherwise step back over the
header and free the block. -/
def free (s : BuddyPool) (ptr : Option Nat) : BuddyPool :=
  match ptr with
  | none => s
  | some p => free_avail s (p - AVAIL_SIZE)

/-- After a `split`, the `kval` stored at the block's own offset is one
less than before (whether or not the computed buddy collides with it). -/
theorem split_headers_kval (s : BuddyPool) (off : Nat) :
    ((split s off).headers off).kval = (s.headers off).kval - 1 := by
  simp only [split, add_to_avail, buddy_calc, upd_same]
  by_cases h : off = off ^^^ 2 ^ ((s.headers off).kval - 1)
  · rw [← h]
    simp [upd]
  · simp [upd, h]

/-- The shrink loop of `realloc`:
`while target_kval < old_avail.kval { old_avail = self.split(old_avail); }`
(`split` returns the same block, so the offset is unchanged). -/
def realloc_shrink (s : BuddyPool) (target off : Nat) : BuddyPool :=
  if _h : target < (s.headers off).kval then
    realloc_shrink (split s off) target off
  else s
termination_by (s.headers off).kval
decreasing_by
  rw [split_headers_kval]
  omega

/-- The single `copy_from_nonoverlapping(src, len)` call a `realloc` may
perform, recorded as the destination address, source address and byte
count it was invoked with (addresses are offsets from `base`). -/
structure CopyOp where
  dst : Nat
  src : Nat
  len : Nat
deriving DecidableEq, Repr

/-- `BuddyPool::realloc`.  Result: new state, returned pointer or error,
and the memory copy performed (if any).  The `.as_mut().ok_or(
CorruptedMemoryPool)` check on `ptr - H` can only fail when the machine
address `base + ptr - H` is null, which never holds for a block of the
mapped region, so no branch of the model produces `CorruptedMemoryPool`. -/
def realloc (s : BuddyPool) (ptr : Option Nat) (size : Nat) :
    BuddyPool × Except BuddyError Nat × Option CopyOp :=
  match ptr with
  | none =>
    match malloc s size with
    | (s', r) => (s', r, none)
  | some p =>
    let target_kval := b_to_k (size + AVAIL_SIZE)
    if target_kval > s.kval_m then
      ({ s with errno := ENOMEM }, .error .NoMemory, none)
    else
      let off := p - AVAIL_SIZE
      let old_kval := (s.headers off).kval
      if target_kval = old_kval then (s, .ok p, none)
      else if size = 0 then (free s (some p), .ok p, none)
      else
        let s1 := realloc_shrink s target_kval off
        if target_kval > (s1.headers off).kval then
          match malloc_kval s1 target_kval with
          | (s2, .ok new_avail) =>
            let new_block := new_avail + AVAIL_SIZE
            let old_size := 2 ^ (s2.headers off).kval
            (free s2 (some p), .ok new_block, some ⟨new_block, p, old_size⟩)
          | (s2, .error e) => (s2, .error e, none)
        else (s1, .ok p, none)

/-- Run a list of `malloc` requests left to right, collecting the returned
user pointers; `none` if any of them fails. -/
def mallocMany (s : BuddyPool) : List Nat → Option (BuddyPool × List Nat)
  | [] => some (s, [])
  | n :: ns =>
    match malloc s n with
    | (s', .ok p) =>
      match mallocMany s' ns with
      | some (s'', ps) => some (s'', p :: ps)
      | none => none
    | (_, .error _) => none

/-- Free a list of user pointers left to right. -/
def freeMany (s : BuddyPool) (ps : List Nat) : BuddyPool :=
  ps.foldl (fun t p => t.free (some p)) s

/-- The post-init topology (`check_buddy_pool_full`): every list below
`kval_m` is empty and `avail[kval_m]` holds exactly the block at `base`. -/
def isFull (s : BuddyPool) : Prop :=
  (∀ k, k < s.kval_m → (s.avail k).blocks = []) ∧
    (s.avail s.kval_m).blocks = [0]

end BuddyPool

/-! ### Characterization of `b_to_k` -/

theorem size_div_two_succ {b : Nat} (hb : 0 < b) :
    Nat.size b = Nat.size (b / 2) + 1 := by
  apply le_antisymm
  · apply Nat.size_le.2
    have h1 := Nat.lt_size_self (b / 2)
    have h2 : 2 ^ (Nat.size (b / 2) + 1) = 2 * 2 ^ Nat.size (b / 2) := by
      rw [pow_succ]; ring
    omega
  · have hle : 2 ^ Nat.size (b / 2) ≤ b := by
      rcases Nat.eq_zero_or_pos (b / 2) with h | h
      · simp [h]
        omega
      · obtain ⟨m, hm⟩ : ∃ m, Nat.size (b / 2) = m + 1 :=
          ⟨Nat.size (b / 2) - 1, by have := Nat.size_pos.2 h; omega⟩
        have h2 : 2 ^ m ≤ b / 2 := Nat.lt_size.1 (by omega)
        have h3 : 2 ^ (m + 1) = 2 * 2 ^ m := by rw [pow_succ]; ring
        rw [hm, h3]
        omega
    have := Nat.lt_size.2 hle
    omega

theorem b_to_k_go_eq_size (b k : Nat) : b_to_k_go b k = Nat.size b + k := by
  induction b using Nat.strong_induction_on generalizing k with
  | _ b ih =>
    rw [b_to_k_go.eq_def]
    by_cases hb : b > 0
    · rw [if_pos hb, Nat.shiftRight_one, ih (b / 2) (Nat.div_lt_self hb one_lt_two),
        size_div_two_succ hb]
      omega
    · have hb0 : b = 0 := by omega
      rw [if_neg hb, hb0, Nat.size_zero, Nat.zero_add]

/-- `b_to_k b ≤ k` exactly when a block of order `k` holds `b` bytes. -/
theorem b_to_k_le_iff {b k : Nat} : b_to_k b ≤ k ↔ b ≤ 2 ^ k := by
  rcases Nat.eq_zero_or_pos b with hb | hb
  · subst hb
    simp [b_to_k, Nat.zero_le, Nat.pos_pow_of_pos]
  · rw [b_to_k, if_neg (by omega), b_to_k_go_eq_size, Nat.add_zero, Nat.size_le]
    omega

theorem le_pow_b_to_k (b : Nat) : b ≤ 2 ^ b_to_k b :=
  b_to_k_le_iff.1 le_rfl

theorem lt_b_to_k {b k : Nat} (h : 2 ^ k < b) : k < b_to_k b := by
  by_contra hc
  have hle : b_to_k b ≤ k := by omega
  have := b_to_k_le_iff.1 hle
  omega

/-! ### Unfolding lemmas for the recursive operations -/

namespace BuddyPool

theorem malloc_kval_of_gt {s : BuddyPool} {kval : Nat} (h : kval > s.kval_m) :
    s.malloc_kval kval = ({ s with errno := ENOMEM }, .error .NoMemory) := by
  rw [malloc_kval.eq_def]
  simp [h]

theorem malloc_kval_cons {s : BuddyPool} {kval b : Nat} {t : List Nat}
    (h : ¬ kval > s.kval_m) (hb : (s.avail kval).blocks = b :: t) :
    s.malloc_kval kval = (s.remove_from_avail b, .ok b) := by
  rw [malloc_kval.eq_def]
  simp [h, hb]

theorem malloc_kval_nil {s : BuddyPool} {kval : Nat}
    (h : ¬ kval > s.kval_m) (hb : (s.avail kval).blocks = []) :
    s.malloc_kval kval =
      match s.malloc_kval (kval + 1) with
      | (s', .ok b) => (s'.split b, .ok b)
      | (s', .error e) => (s', .error e) := by
  rw [malloc_kval.eq_def]
  simp [h, hb]

/-- `malloc_kval` can only fail with `NoMemory`, and it fails without having
touched the pool: the recursion reaches its entry check before any block is
unlinked or split, so the state is returned unchanged except for `errno`. -/
theorem malloc_kval_error {s : BuddyPool} {kval : Nat} {s' : BuddyPool}
    {e : BuddyError} (h : s.malloc_kval kval = (s', .error e)) :
    s' = { s with errno := ENOMEM } ∧ e = .NoMemory := by
  have H : ∀ d kval s' e, s.kval_m + 1 - kval = d →
      s.malloc_kval kval = (s', .error e) →
      s' = { s with errno := ENOMEM } ∧ e = .NoMemory := by
    intro d
    induction d using Nat.strong_induction_on with
    | _ d ih =>
      intro kval s' e hd h
      by_cases hk : kval > s.kval_m
      · rw [malloc_kval_of_gt hk] at h
        simp only [Prod.mk.injEq, Except.error.injEq] at h
        exact ⟨h.1.symm, h.2.symm⟩
      · rcases hb : (s.avail kval).blocks with _ | ⟨b, t⟩
        · rw [malloc_kval_nil hk hb] at h
          rcases hrec : s.malloc_kval (kval + 1) with ⟨s₁, r⟩
          rcases r with e₁ | b₁
          · rw [hrec] at h
            simp only [Prod.mk.injEq, Except.error.injEq] at h
            obtain ⟨rfl, rfl⟩ := h
            exact ih (s.kval_m + 1 - (kval + 1)) (by omega) (kval + 1) _ _ rfl hrec
          · rw [hrec] at h
            simp at h
        · rw [malloc_kval_cons hk hb] at h
          simp at h
  exact H _ kval s' e rfl h

theorem get_avail_buddy_eq_some {s : BuddyPool} {off buddy : Nat}
    (h : s.get_avail_buddy off = some buddy) :
    (s.headers off).kval ≠ s.kval_m ∧ buddy = s.buddy_calc off ∧
      (s.headers buddy).tag = BLOCK_AVAIL ∧
      (s.headers buddy).kval = (s.headers off).kval := by
  simp only [get_avail_buddy] at h
  split_ifs at h with h1 h2 h3
  obtain rfl := Option.some.inj h
  exact ⟨h1, rfl, not_not.1 h2, not_not.1 h3⟩

theorem get_avail_buddy_top {s : BuddyPool} {off : Nat}
    (h : (s.headers off).kval = s.kval_m) : s.get_avail_buddy off = none := by
  simp [get_avail_buddy, h]

end BuddyPool

namespace BuddyPool

/-- Fuel-irrelevance of the coalescing loop: any two fuels strictly larger
than `kval_m - kval` (the number of orders left above the block) produce the
same result, because every iteration increments the surviving block's order
and `get_avail_buddy` returns `none` at order `kval_m`. -/
theorem free_avail_go_eq_of_fuel {s : BuddyPool} {off fuel₁ fuel₂ : Nat}
    (hk : (s.headers off).kval ≤ s.kval_m)
    (h1 : s.kval_m - (s.headers off).kval < fuel₁)
    (h2 : s.kval_m - (s.headers off).kval < fuel₂) :
    free_avail_go s off fuel₁ = free_avail_go s off fuel₂ := by
  have H : ∀ d (s : BuddyPool) off fuel₁ fuel₂,
      s.kval_m - (s.headers off).kval = d → (s.headers off).kval ≤ s.kval_m →
      d < fuel₁ → d < fuel₂ →
      free_avail_go s off fuel₁ = free_avail_go s off fuel₂ := by
    intro d
    induction d using Nat.strong_induction_on with
    | _ d ih =>
      intro s off fuel₁ fuel₂ hd hk h1 h2
      rcases fuel₁ with _ | g₁
      · omega
      rcases fuel₂ with _ | g₂
      · omega
      simp only [free_avail_go]
      rcases hgb : s.get_avail_buddy off with _ | buddy
      · rfl
      obtain ⟨hne, hbc, htag, hkv⟩ := get_avail_buddy_eq_some hgb
      by_cases hlt : off < buddy
      · have hne2 : off ≠ buddy := Nat.ne_of_lt hlt
        simp only [if_pos hlt]
        apply ih (d - 1) (by omega)
        · simp [remove_from_avail, upd, hne2]
          omega
        · simp [remove_from_avail, upd, hne2]
          omega
        · omega
        · omega
      · simp only [if_neg hlt]
        apply ih (d - 1) (by omega)
        · simp [remove_from_avail, upd, hkv]
          omega
        · simp [remove_from_avail, upd, hkv]
          omega
        · omega
        · omega
  exact H _ s off fuel₁ fuel₂ rfl hk h1 h2

end BuddyPool

namespace BuddyPool

theorem malloc_error {s : BuddyPool} {size : Nat} {s' : BuddyPool}
    {e : BuddyError} (h : s.malloc size = (s', .error e)) :
    s' = { s with errno := ENOMEM } ∧ e = .NoMemory := by
  rw [malloc.eq_def] at h
  rcases hmk : s.malloc_kval (b_to_k (size + AVAIL_SIZE)) with ⟨s₁, r⟩
  rw [hmk] at h
  rcases r with e₁ | b
  · simp only [Prod.mk.injEq, Except.error.injEq] at h
    obtain ⟨rfl, rfl⟩ := h
    exact malloc_kval_error hmk
  · simp at h

end BuddyPool

/-- Over the idealized unbounded size arithmetic, an oversized request
fails with `NoMemory` and sets `ENOMEM`, leaving everything else
unchanged. -/
theorem c7_malloc_too_large_fails (s : BuddyPool) (size : Nat)
    (h : 2 ^ s.kval_m < size + AVAIL_SIZE) :
    s.malloc size = ({ s with errno := ENOMEM }, .error .NoMemory) := by
  have hk : s.kval_m < b_to_k (size + AVAIL_SIZE) := lt_b_to_k h
  rw [BuddyPool.malloc.eq_def, BuddyPool.malloc_kval_of_gt hk]

/-- C7 (amended): for every pool state and every size with
`size + H > 2^kval_m` whose padded byte count does not overflow `usize`
(`size + H < 2^64`), `malloc` returns `Err(NoMemory)` and sets the
ambient error channel to `ENOMEM` (12), leaving everything else
unchanged.  Without the no-overflow bound the statement is false of the
program: see the counterexample below. -/
theorem c7_malloc_too_large_fails_amended (s : BuddyPool) (size : Nat)
    (hov : size + AVAIL_SIZE < USIZE)
    (h : 2 ^ s.kval_m < size + AVAIL_SIZE) :
    s.malloc_usize size = ({ s with errno := ENOMEM }, .error .NoMemory) := by
  have hmod : (size + AVAIL_SIZE) % USIZE = size + AVAIL_SIZE :=
    Nat.mod_eq_of_lt hov
  have hk : s.kval_m < b_to_k ((size + AVAIL_SIZE) % USIZE) := by
    rw [hmod]
    exact lt_b_to_k h
  rw [BuddyPool.malloc_usize.eq_def, BuddyPool.malloc_kval_of_gt hk]

/-- Witness for the amended C7: a pool of order 0 and a 1-byte request,
whose padded size does not overflow. -/
theorem c7_malloc_too_large_fails_amended_witness :
    (1 : Nat) + AVAIL_SIZE < USIZE ∧
      (2 : Nat) ^ (⟨0, fun _ => ⟨0, 0⟩, fun _ => ⟨0, 0, []⟩, 0⟩ :
          BuddyPool).kval_m < 1 + AVAIL_SIZE ∧
      (⟨0, fun _ => ⟨0, 0⟩, fun _ => ⟨0, 0, []⟩, 0⟩ :
          BuddyPool).malloc_usize 1 =
        ({ (⟨0, fun _ => ⟨0, 0⟩, fun _ => ⟨0, 0, []⟩, 0⟩ : BuddyPool) with
            errno := ENOMEM }, .error .NoMemory) :=
  ⟨by decide, by decide,
    c7_malloc_too_large_fails_amended _ 1 (by decide) (by decide)⟩

/-- C7 counterexample: on the freshly initialized `2^20`-byte pool, the
request `size = 2^64 + 2^20 - 32` satisfies the original claim's
condition `size + H > 2^kval_m`, but the source's `usize` addition
`size + size_of::<Avail>()` wraps to `2^20`, the order check passes, and
`malloc` returns `Ok` with a block — not `Err(NoMemory)`. -/
theorem c7_overflow_counterexample :
    2 ^ ((BuddyPool.new (2 ^ 20)).init).kval_m <
        (2 ^ 64 + 2 ^ 20 - AVAIL_SIZE) + AVAIL_SIZE ∧
      (((BuddyPool.new (2 ^ 20)).init).malloc_usize
          (2 ^ 64 + 2 ^ 20 - AVAIL_SIZE)).2 = .ok AVAIL_SIZE := by
  have hk20 : BuddyPool.newKval (2 ^ 20) = 20 := by
    have h : (2 : Nat) ^ 20 = 1048576 := by norm_num
    rw [h]
    simp [BuddyPool.newKval, b_to_k, b_to_k_go, MIN_K, MAX_K, DEFAULT_K]
  have hk : ((BuddyPool.new (2 ^ 20)).init).kval_m = 20 := hk20
  constructor
  · rw [hk]
    norm_num [AVAIL_SIZE]
  · have h1 : ((2 ^ 64 + 2 ^ 20 - AVAIL_SIZE) + AVAIL_SIZE) % USIZE =
        2 ^ 20 := by
      norm_num [AVAIL_SIZE, USIZE]
    have h2 : b_to_k (2 ^ 20) = 20 := by
      have h : (2 : Nat) ^ 20 = 1048576 := by norm_num
      rw [h]
      simp [b_to_k, b_to_k_go]
    have h3 : (((BuddyPool.new (2 ^ 20)).init).avail 20).blocks = [0] := by
      show ((if 20 ≤ (BuddyPool.new (2 ^ 20)).kval_m then
          if 20 = (BuddyPool.new (2 ^ 20)).kval_m then
            (⟨BLOCK_UNUSED, 20, [0]⟩ : FreeList)
          else ⟨BLOCK_UNUSED, 20, []⟩
        else (BuddyPool.new (2 ^ 20)).avail 20)).blocks = [0]
      have hk' : (BuddyPool.new (2 ^ 20)).kval_m = 20 := hk20
      rw [hk', if_pos le_rfl, if_pos rfl]
    have hgt : ¬ 20 > ((BuddyPool.new (2 ^ 20)).init).kval_m := by
      rw [hk]
      omega
    have h4 : ((BuddyPool.new (2 ^ 20)).init).malloc_kval 20 =
        (((BuddyPool.new (2 ^ 20)).init).remove_from_avail 0, .ok 0) :=
      BuddyPool.malloc_kval_cons hgt h3
    rw [BuddyPool.malloc_usize.eq_def, h1, h2, h4]
    rfl

/-- C10: whenever `malloc` returns `Err(NoMemory)`, the pool state is
exactly as before except for the ambient `errno`: the recursive
`malloc_kval` fails only at its entry check, before any block is unlinked
or split. -/
theorem c10_malloc_error_preserves_state (s : BuddyPool) (size : Nat)
    (h : (s.malloc size).2 = .error .NoMemory) :
    (s.malloc size).1 = { s with errno := ENOMEM } := by
  rcases hm : s.malloc size with ⟨s', r⟩
  rw [hm] at h
  simp only at h
  subst h
  exact (BuddyPool.malloc_error hm).1

/-- Witness for C10: the failing 1-byte `malloc` on an order-0 pool. -/
theorem c10_malloc_error_preserves_state_witness :
    ((⟨0, fun _ => ⟨0, 0⟩, fun _ => ⟨0, 0, []⟩, 0⟩ : BuddyPool).malloc 1).2 =
        .error .NoMemory ∧
      ((⟨0, fun _ => ⟨0, 0⟩, fun _ => ⟨0, 0, []⟩, 0⟩ : BuddyPool).malloc 1).1 =
        { (⟨0, fun _ => ⟨0, 0⟩, fun _ => ⟨0, 0, []⟩, 0⟩ : BuddyPool) with
            errno := ENOMEM } := by
  have h : ((⟨0, fun _ => ⟨0, 0⟩, fun _ => ⟨0, 0, []⟩, 0⟩ :
      BuddyPool).malloc 1).2 = .error .NoMemory := by
    rw [c7_malloc_too_large_fails _ 1 (by decide)]
  exact ⟨h, c10_malloc_error_preserves_state _ 1 h⟩

/-- C9: the coalescing loop of `free` terminates: each iteration strictly
increases the surviving block's order, `get_avail_buddy` returns `none`
once the order reaches `kval_m`, and therefore at most
`kval_m - kval` iterations run; any fuel beyond that bound — in
particular the `kval_m + 1` used by `free_avail` — gives the same result. -/
theorem c9_free_coalesce_terminates (s : BuddyPool) (off fuel : Nat)
    (hk : (s.headers off).kval ≤ s.kval_m)
    (hf : s.kval_m - (s.headers off).kval < fuel) :
    BuddyPool.free_avail_go s off fuel = s.free_avail off :=
  BuddyPool.free_avail_go_eq_of_fuel hk hf (by omega)

/-- Witness for C9: an order-0 pool, one unit of fuel. -/
theorem c9_free_coalesce_terminates_witness :
    BuddyPool.free_avail_go
        (⟨0, fun _ => ⟨0, 0⟩, fun _ => ⟨0, 0, []⟩, 0⟩ : BuddyPool) 0 1 =
      (⟨0, fun _ => ⟨0, 0⟩, fun _ => ⟨0, 0, []⟩, 0⟩ :
        BuddyPool).free_avail 0 :=
  c9_free_coalesce_terminates _ 0 1 (by decide) (by decide)

/-- C6: `b_to_k 0 = 0` and for every `b`, `b_to_k b` is the least `k`
with `2^k ≥ b`. -/
theorem c6_b_to_k_least :
    b_to_k 0 = 0 ∧
      ∀ b : Nat, b ≤ 2 ^ b_to_k b ∧ ∀ j : Nat, b ≤ 2 ^ j → b_to_k b ≤ j :=
  ⟨by simp [b_to_k], fun b =>
    ⟨le_pow_b_to_k b, fun _ hj => b_to_k_le_iff.2 hj⟩⟩

/-- Witness for C6 at `b = 3`, `j = 2` (the spec's example
`bytes_to_order 3 = 2`). -/
theorem c6_b_to_k_least_witness : b_to_k 3 ≤ 2 ∧ 3 ≤ 2 ^ b_to_k 3 :=
  ⟨(c6_b_to_k_least.2 3).2 2 (by norm_num), (c6_b_to_k_least.2 3).1⟩

/-- C1: the clamp in `new` is off by one.  The source tests `kval > MAX_K`
instead of `kval > MAX_K - 1`, so for `size = 2^47 + 1` (where
`b_to_k size = 48 = MAX_K` exactly) the chosen order is `MAX_K` itself,
not `MAX_K - 1` as the claim states — outside the documented range
`[MIN_K, MAX_K - 1]`, and `init` would then index `avail[MAX_K]` out of
bounds of the `[Avail; MAX_K]` array. -/
theorem c1_new_order_escapes_clamp :
    b_to_k (2 ^ 47 + 1) = MAX_K ∧
      (BuddyPool.new (2 ^ 47 + 1)).kval_m = MAX_K ∧
      (BuddyPool.new (2 ^ 47 + 1)).kval_m ≠ MAX_K - 1 := by
  have h : (2 : Nat) ^ 47 + 1 = 140737488355329 := by norm_num
  have hb : b_to_k (2 ^ 47 + 1) = MAX_K := by
    rw [h]
    show b_to_k 140737488355329 = 48
    simp [b_to_k, b_to_k_go]
  have hnk : BuddyPool.newKval (2 ^ 47 + 1) = 48 := by
    simp only [BuddyPool.newKval, hb]
    norm_num [MIN_K, MAX_K, DEFAULT_K]
  refine ⟨hb, hnk, ?_⟩
  show BuddyPool.newKval (2 ^ 47 + 1) ≠ MAX_K - 1
  rw [hnk]
  decide

/-- C8: `realloc` never returns `CorruptedMemoryPool` in the embedding:
the pre-image header at `ptr - H` of every non-null pointer is readable
(its machine address `base + ptr - H` is never null), and the null-pointer
case delegates to `malloc`, which can only fail with `NoMemory`. -/
theorem c8_realloc_never_corrupted (s : BuddyPool) (ptr : Option Nat)
    (size : Nat) :
    (s.realloc ptr size).2.1 ≠ .error .CorruptedMemoryPool := by
  rcases ptr with _ | p
  · rw [BuddyPool.realloc.eq_def]
    rcases hm : s.malloc size with ⟨s', r⟩
    rcases r with e | b
    · obtain ⟨-, rfl⟩ := BuddyPool.malloc_error hm
      simp
    · simp
  · rw [BuddyPool.realloc.eq_def]
    dsimp only
    split_ifs with h1 h2 h3 h4
    · simp
    · simp
    · simp
    · rcases hmk : (s.realloc_shrink (b_to_k (size + AVAIL_SIZE))
          (p - AVAIL_SIZE)).malloc_kval (b_to_k (size + AVAIL_SIZE)) with ⟨s₂, r⟩
      rcases r with e | b
      · obtain ⟨-, rfl⟩ := BuddyPool.malloc_kval_error hmk
        simp
      · simp
    · simp

/-- Shared computation: a pool requested with `2^20` bytes has order 20. -/
theorem newKval_pow_twenty : BuddyPool.newKval (2 ^ 20) = 20 := by
  have h : (2 : Nat) ^ 20 = 1048576 := by norm_num
  rw [h]
  simp [BuddyPool.newKval, b_to_k, b_to_k_go, MIN_K, MAX_K, DEFAULT_K]

/-- C5: after `init` on a pool produced by `new`, every sentinel below
`kval_m` self-loops (empty list) with order `k` and tag `UNUSED`, and
`avail[kval_m]` is an `UNUSED` sentinel of order `kval_m` whose list holds
exactly one block, at `base` (offset 0), linked to the sentinel in both
directions; that block's header is `AVAIL` with order `kval_m`. -/
theorem c5_post_init_topology (size : Nat) :
    (∀ k, k < ((BuddyPool.new size).init).kval_m →
        ((BuddyPool.new size).init).avail k = ⟨BLOCK_UNUSED, k, []⟩) ∧
      ((BuddyPool.new size).init).avail ((BuddyPool.new size).init).kval_m =
        ⟨BLOCK_UNUSED, ((BuddyPool.new size).init).kval_m, [0]⟩ ∧
      ((BuddyPool.new size).init).headers 0 =
        ⟨BLOCK_AVAIL, ((BuddyPool.new size).init).kval_m⟩ := by
  refine ⟨fun k hk => ?_, ?_, ?_⟩
  · show (if k ≤ (BuddyPool.new size).kval_m then
        if k = (BuddyPool.new size).kval_m then
          (⟨BLOCK_UNUSED, k, [0]⟩ : FreeList)
        else ⟨BLOCK_UNUSED, k, []⟩
      else (BuddyPool.new size).avail k) = ⟨BLOCK_UNUSED, k, []⟩
    have hk' : k < (BuddyPool.new size).kval_m := hk
    rw [if_pos (le_of_lt hk'), if_neg (Nat.ne_of_lt hk')]
  · have hkm : ((BuddyPool.new size).init).kval_m =
        (BuddyPool.new size).kval_m := rfl
    show (if ((BuddyPool.new size).init).kval_m ≤ (BuddyPool.new size).kval_m
        then _ else _) = _
    rw [hkm, if_pos le_rfl, if_pos rfl]
  · show upd (BuddyPool.new size).headers 0
        ⟨BLOCK_AVAIL, (BuddyPool.new size).kval_m⟩ 0 = _
    rw [upd_same]
    rfl

/-- Witness for C5: the `2^20`-byte pool, sentinel 0 and the top sentinel. -/
theorem c5_post_init_topology_witness :
    ((BuddyPool.new (2 ^ 20)).init).avail 0 = ⟨BLOCK_UNUSED, 0, []⟩ ∧
      ((BuddyPool.new (2 ^ 20)).init).avail 20 = ⟨BLOCK_UNUSED, 20, [0]⟩ := by
  have hk20 : BuddyPool.newKval (2 ^ 20) = 20 := by
    have h : (2 : Nat) ^ 20 = 1048576 := by norm_num
    rw [h]
    simp [BuddyPool.newKval, b_to_k, b_to_k_go, MIN_K, MAX_K, DEFAULT_K]
  have hk : ((BuddyPool.new (2 ^ 20)).init).kval_m = 20 := hk20
  constructor
  · exact (c5_post_init_topology (2 ^ 20)).1 0 (by rw [hk]; norm_num)
  · have h2 := (c5_post_init_topology (2 ^ 20)).2.1
    rw [hk] at h2
    exact h2

/-- C3: the `target_kval == old_kval` early return of `realloc` precedes its
`size == 0` check, so whenever the block's current order equals
`b_to_k (0 + H)`, `realloc(p, 0)` returns `p` with the pool completely
unchanged — the block is not freed, contradicting the claim and the
function's own doc comment (`if size is equal to zero, and ptr is not
NULL, then the call is equivalent to free(ptr)`). -/
theorem c3_realloc_zero_skips_free (s : BuddyPool) (p : Nat)
    (h1 : ¬ b_to_k (0 + AVAIL_SIZE) > s.kval_m)
    (h2 : b_to_k (0 + AVAIL_SIZE) = (s.headers (p - AVAIL_SIZE)).kval) :
    s.realloc (some p) 0 = (s, .ok p, none) := by
  rw [BuddyPool.realloc.eq_def]
  dsimp only
  rw [if_neg h1, if_pos h2]

/-- Witness for C3: a pool whose block at offset 0 is reserved with order
`b_to_k H = 5` — exactly the header state `malloc(0)` produces — and the
user pointer 32 of that block; `realloc(32, 0)` leaves the whole pool
untouched instead of freeing. -/
theorem c3_realloc_zero_skips_free_witness :
    (⟨5, fun _ => ⟨BLOCK_RESERVED, 5⟩, fun k => ⟨BLOCK_UNUSED, k, []⟩, 0⟩ :
        BuddyPool).realloc (some 32) 0 =
      ((⟨5, fun _ => ⟨BLOCK_RESERVED, 5⟩, fun k => ⟨BLOCK_UNUSED, k, []⟩, 0⟩ :
        BuddyPool), .ok 32, none) := by
  have hb : b_to_k (0 + AVAIL_SIZE) = 5 := by
    simp [b_to_k, b_to_k_go, AVAIL_SIZE]
  exact c3_realloc_zero_skips_free _ 32 (by rw [hb]; decide) (by rw [hb])

namespace BuddyPool

/-- The pool used to exercise the grow case of `realloc` concretely: order
8, a reserved block of order 6 at offset 0 (its user pointer is 32),
and one available block of order 8 at offset 256. -/
def c2pool : BuddyPool :=
  ⟨8,
    fun o => if o = 0 then ⟨BLOCK_RESERVED, 6⟩
      else if o = 256 then ⟨BLOCK_AVAIL, 8⟩ else ⟨BLOCK_RESERVED, 0⟩,
    fun k => if k = 8 then ⟨BLOCK_UNUSED, 8, [256]⟩ else ⟨BLOCK_UNUSED, k, []⟩,
    0⟩

end BuddyPool

/-- C2 (counterexample to the claim as stated): growing the order-6 block
at offset 0 of `c2pool` (user pointer 32) to order 8 allocates the block
at offset 256 and records the copy `⟨dst := 288, src := 32, len := 64⟩`:
the source of the `copy_from_nonoverlapping` call is the user pointer
`p = 32`, not the old block's start address 0, and the destination is the
new block's address plus `H` (288), not the new block's start address 256
as the claim asserts. -/
theorem c2_copy_addresses_counterexample :
    (BuddyPool.c2pool.realloc (some 32) 128).2.2 = some ⟨288, 32, 64⟩ ∧
      (⟨288, 32, 64⟩ : BuddyPool.CopyOp) ≠ ⟨256, 0, 64⟩ := by
  constructor
  · have hb : b_to_k 160 = 8 := by simp [b_to_k, b_to_k_go]
    have h0 : (32 : Nat) - AVAIL_SIZE = 0 := by norm_num [AVAIL_SIZE]
    have hkm : BuddyPool.c2pool.kval_m = 8 := rfl
    have hh0 : BuddyPool.c2pool.headers 0 = ⟨BLOCK_RESERVED, 6⟩ := by
      norm_num [BuddyPool.c2pool]
    have hmk : BuddyPool.c2pool.malloc_kval 8 =
        (BuddyPool.c2pool.remove_from_avail 256, .ok 256) := by
      rw [BuddyPool.malloc_kval.eq_def]
      norm_num [BuddyPool.c2pool]
    have hsh : BuddyPool.c2pool.realloc_shrink 8 0 = BuddyPool.c2pool := by
      rw [BuddyPool.realloc_shrink.eq_def]
      simp [hh0]
    rw [BuddyPool.realloc.eq_def]
    norm_num [hb, h0, hkm, hh0, hmk, hsh, BuddyPool.remove_from_avail, upd,
      AVAIL_SIZE]
  · decide

/-- C2 (amended): in the grow case of `realloc` — target order above the
old order and within the pool, non-zero size, and `malloc_kval` yielding a
new block `b` — the code copies exactly `2^old_order` bytes from the old
USER pointer `p` to the new block's address plus `H` with a single
non-overlapping copy (the old order being read back from the header after
the allocation), frees `p`, and returns the new block's address plus `H`. -/
theorem c2_realloc_grow_amended (s : BuddyPool) (p size : Nat)
    (s' : BuddyPool) (b : Nat)
    (h1 : ¬ b_to_k (size + AVAIL_SIZE) > s.kval_m)
    (h2 : (s.headers (p - AVAIL_SIZE)).kval < b_to_k (size + AVAIL_SIZE))
    (h3 : ¬ size = 0)
    (h4 : s.malloc_kval (b_to_k (size + AVAIL_SIZE)) = (s', .ok b)) :
    s.realloc (some p) size =
      (s'.free (some p), .ok (b + AVAIL_SIZE),
        some ⟨b + AVAIL_SIZE, p, 2 ^ (s'.headers (p - AVAIL_SIZE)).kval⟩) := by
  have hsh : s.realloc_shrink (b_to_k (size + AVAIL_SIZE)) (p - AVAIL_SIZE)
      = s := by
    rw [BuddyPool.realloc_shrink.eq_def]
    rw [dif_neg (by omega)]
  rw [BuddyPool.realloc.eq_def]
  dsimp only
  rw [if_neg h1, if_neg (by omega), if_neg h3, hsh, if_pos h2, h4]

/-- Witness for C2's amended theorem: the concrete grow on `c2pool`. -/
theorem c2_realloc_grow_amended_witness :
    BuddyPool.c2pool.realloc (some 32) 128 =
      ((BuddyPool.c2pool.remove_from_avail 256).free (some 32), .ok 288,
        some ⟨288, 32, 64⟩) := by
  have hb : b_to_k (128 + AVAIL_SIZE) = 8 := by
    simp [b_to_k, b_to_k_go, AVAIL_SIZE]
  have h4 : BuddyPool.c2pool.malloc_kval (b_to_k (128 + AVAIL_SIZE)) =
      (BuddyPool.c2pool.remove_from_avail 256, .ok 256) := by
    rw [hb, BuddyPool.malloc_kval.eq_def]
    norm_num [BuddyPool.c2pool]
  have h := c2_realloc_grow_amended BuddyPool.c2pool 32 128 _ _
    (by rw [hb]; decide) (by rw [hb]; decide) (by norm_num) h4
  simpa [BuddyPool.remove_from_avail, upd, BuddyPool.c2pool, AVAIL_SIZE]
    using h

/-! ### Buddy XOR arithmetic

`buddy_calc` computes `off ^^^ 2^k`; on the order-aligned offsets the pool
produces, this is `off + 2^k` or `off - 2^k` according to bit `k`. -/

theorem xor_mod_two_eq (a b : Nat) :
    (a ^^^ b) % 2 = (a % 2 + b % 2) % 2 := by
  have hx := Nat.xor_mod_two_eq_one (a := a) (b := b)
  rcases Nat.mod_two_eq_zero_or_one a with ha | ha <;>
    rcases Nat.mod_two_eq_zero_or_one b with hb | hb
  · rcases Nat.mod_two_eq_zero_or_one (a ^^^ b) with h | h
    · omega
    · exact absurd (hx.1 h) (by simp [ha, hb])
  · have h1 : (a ^^^ b) % 2 = 1 := hx.2 (by simp [ha, hb])
    omega
  · have h1 : (a ^^^ b) % 2 = 1 := hx.2 (by simp [ha, hb])
    omega
  · rcases Nat.mod_two_eq_zero_or_one (a ^^^ b) with h | h
    · omega
    · exact absurd (hx.1 h) (by simp [ha, hb])

theorem xor_two_pow_add {j b : Nat} (h : b / 2 ^ j % 2 = 0) :
    b ^^^ 2 ^ j = b + 2 ^ j := by
  induction j generalizing b with
  | zero =>
    simp only [pow_zero, Nat.div_one] at h
    have hdiv : (b ^^^ 1) / 2 = b / 2 := by
      rw [Nat.xor_div_two]
      norm_num
    have hmod : (b ^^^ 1) % 2 = 1 := by
      rw [xor_mod_two_eq]
      omega
    simp only [pow_zero]
    omega
  | succ j ih =>
    have hp : (2 : Nat) ^ (j + 1) = 2 * 2 ^ j := by rw [pow_succ]; ring
    have hdiv : (b ^^^ 2 ^ (j + 1)) / 2 = b / 2 + 2 ^ j := by
      rw [Nat.xor_div_two]
      have h2 : (2 : Nat) ^ (j + 1) / 2 = 2 ^ j := by omega
      rw [h2]
      apply ih
      have : b / 2 / 2 ^ j = b / 2 ^ (j + 1) := by
        rw [Nat.div_div_eq_div_mul, ← hp]
      omega
    have hmod : (b ^^^ 2 ^ (j + 1)) % 2 = b % 2 := by
      rw [xor_mod_two_eq]
      omega
    omega

theorem xor_two_pow_of_dvd_succ {j b : Nat} (h : 2 ^ (j + 1) ∣ b) :
    b ^^^ 2 ^ j = b + 2 ^ j := by
  apply xor_two_pow_add
  obtain ⟨m, rfl⟩ := h
  have hp : (2 : Nat) ^ (j + 1) = 2 ^ j * 2 := by rw [pow_succ]
  rw [hp, Nat.mul_assoc, Nat.mul_div_cancel_left _ (Nat.pos_pow_of_pos j
    (by norm_num))]
  omega

theorem xor_two_pow_sub {j b : Nat} (hd : 2 ^ j ∣ b)
    (h : ¬ 2 ^ (j + 1) ∣ b) :
    b ^^^ 2 ^ j = b - 2 ^ j ∧ 2 ^ j ≤ b ∧ 2 ^ (j + 1) ∣ b - 2 ^ j := by
  obtain ⟨m, rfl⟩ := hd
  have hp : (2 : Nat) ^ (j + 1) = 2 ^ j * 2 := by rw [pow_succ]
  have hodd : m % 2 = 1 := by
    rcases Nat.mod_two_eq_zero_or_one m with h' | h'
    · exfalso
      apply h
      rw [hp]
      exact Nat.mul_dvd_mul_left (2 ^ j) (Nat.dvd_of_mod_eq_zero h')
    · exact h'
  have hle : 2 ^ j ≤ 2 ^ j * m := Nat.le_mul_of_pos_right _ (by omega)
  have hsub : 2 ^ j * m - 2 ^ j = 2 ^ j * (m - 1) := by
    rw [Nat.mul_sub_one]
  have hdvd2 : 2 ^ (j + 1) ∣ 2 ^ j * m - 2 ^ j := by
    rw [hsub, hp]
    obtain ⟨q, hq⟩ : ∃ q, m - 1 = 2 * q := ⟨(m - 1) / 2, by omega⟩
    exact ⟨q, by rw [hq]; ring⟩
  refine ⟨?_, hle, hdvd2⟩
  have hadd := xor_two_pow_of_dvd_succ hdvd2
  have heq : (2 ^ j * m - 2 ^ j) ^^^ 2 ^ j ^^^ 2 ^ j = 2 ^ j * m ^^^ 2 ^ j := by
    rw [hadd]
    congr 1
    omega
  rw [Nat.xor_assoc, Nat.xor_self, Nat.xor_zero] at heq
  exact heq.symm

/-- The two cases of the buddy of an order-aligned offset: bit `j` clear
(the buddy is above) or set (the buddy is below). -/
theorem sib_cases {j b : Nat} (hd : 2 ^ j ∣ b) :
    (2 ^ (j + 1) ∣ b ∧ b ^^^ 2 ^ j = b + 2 ^ j) ∨
      (¬ 2 ^ (j + 1) ∣ b ∧ 2 ^ j ≤ b ∧ b ^^^ 2 ^ j = b - 2 ^ j ∧
        2 ^ (j + 1) ∣ b - 2 ^ j) := by
  by_cases h2 : 2 ^ (j + 1) ∣ b
  · exact Or.inl ⟨h2, xor_two_pow_of_dvd_succ h2⟩
  · obtain ⟨hx, hle, hdvd⟩ := xor_two_pow_sub hd h2
    exact Or.inr ⟨h2, hle, hx, hdvd⟩

/-! ### The block tree

`Shape off k A R` says that the region `[off, off + 2^k)` is exactly
partitioned into the available blocks `A` and the reserved blocks `R`
(each a multiset of `(offset, order)` pairs) by recursive buddy splitting,
and that no two buddies of the same order are simultaneously available
(the no-merge invariant enforced by coalescing). -/

abbrev Block : Type := Nat × Nat

inductive Shape : Nat → Nat → Multiset Block → Multiset Block → Prop where
  | availLeaf (off k : Nat) : Shape off k {(off, k)} 0
  | resvLeaf (off k : Nat) : Shape off k 0 {(off, k)}
  | node {off k : Nat} {A₁ R₁ A₂ R₂ : Multiset Block} :
      Shape off k A₁ R₁ → Shape (off + 2 ^ k) k A₂ R₂ →
      ¬((off, k) ∈ A₁ ∧ (off + 2 ^ k, k) ∈ A₂) →
      Shape off (k + 1) (A₁ + A₂) (R₁ + R₂)

theorem two_pow_succ_eq (k : Nat) : (2 : Nat) ^ (k + 1) = 2 ^ k + 2 ^ k := by
  rw [pow_succ]
  ring

/-- Every leaf's order is at most the region's order. -/
theorem Shape.order_le {off k : Nat} {A R : Multiset Block}
    (h : Shape off k A R) : ∀ x ∈ A + R, x.2 ≤ k := by
  induction h with
  | availLeaf off k =>
    intro x hx
    simp at hx
    simp [hx]
  | resvLeaf off k =>
    intro x hx
    simp at hx
    simp [hx]
  | node h₁ h₂ hnm ih₁ ih₂ =>
    intro x hx
    rcases Multiset.mem_add.1 hx with hx' | hx' <;>
      rcases Multiset.mem_add.1 hx' with hx'' | hx''
    · exact le_trans (ih₁ x (Multiset.mem_add.2 (Or.inl hx''))) (Nat.le_succ _)
    · exact le_trans (ih₂ x (Multiset.mem_add.2 (Or.inl hx''))) (Nat.le_succ _)
    · exact le_trans (ih₁ x (Multiset.mem_add.2 (Or.inr hx''))) (Nat.le_succ _)
    · exact le_trans (ih₂ x (Multiset.mem_add.2 (Or.inr hx''))) (Nat.le_succ _)

/-- Every leaf's region is contained in the shape's region. -/
theorem Shape.bounds {off k : Nat} {A R : Multiset Block}
    (h : Shape off k A R) : ∀ x ∈ A + R, off ≤ x.1 ∧ x.1 + 2 ^ x.2 ≤ off + 2 ^ k := by
  induction h with
  | availLeaf off k =>
    intro x hx
    simp at hx
    simp [hx]
  | resvLeaf off k =>
    intro x hx
    simp at hx
    simp [hx]
  | @node off k A₁ R₁ A₂ R₂ h₁ h₂ hnm ih₁ ih₂ =>
    intro x hx
    have hp := two_pow_succ_eq k
    have hmem : x ∈ A₁ + R₁ ∨ x ∈ A₂ + R₂ := by
      rcases Multiset.mem_add.1 hx with hx' | hx' <;>
        rcases Multiset.mem_add.1 hx' with hx'' | hx''
      · exact Or.inl (Multiset.mem_add.2 (Or.inl hx''))
      · exact Or.inr (Multiset.mem_add.2 (Or.inl hx''))
      · exact Or.inl (Multiset.mem_add.2 (Or.inr hx''))
      · exact Or.inr (Multiset.mem_add.2 (Or.inr hx''))
    have hpk : (0 : Nat) < 2 ^ k := Nat.pos_pow_of_pos _ (by norm_num)
    have hpx : (0 : Nat) < 2 ^ x.2 := Nat.pos_pow_of_pos _ (by norm_num)
    rcases hmem with hm | hm
    · have := ih₁ x hm
      omega
    · have := ih₂ x hm
      omega

/-- On an order-aligned region every leaf offset is aligned to its own
order. -/
theorem Shape.aligned {off k : Nat} {A R : Multiset Block}
    (h : Shape off k A R) : 2 ^ k ∣ off → ∀ x ∈ A + R, 2 ^ x.2 ∣ x.1 := by
  induction h with
  | availLeaf off k =>
    intro hal x hx
    simp at hx
    simp [hx, hal]
  | resvLeaf off k =>
    intro hal x hx
    simp at hx
    simp [hx, hal]
  | @node off k A₁ R₁ A₂ R₂ h₁ h₂ hnm ih₁ ih₂ =>
    intro hal x hx
    have hal' : 2 ^ k ∣ off :=
      dvd_trans (pow_dvd_pow 2 (Nat.le_succ k)) hal
    have hal₂ : 2 ^ k ∣ off + 2 ^ k := dvd_add hal' dvd_rfl
    rcases Multiset.mem_add.1 hx with hx' | hx' <;>
      rcases Multiset.mem_add.1 hx' with hx'' | hx''
    · exact ih₁ hal' x (Multiset.mem_add.2 (Or.inl hx''))
    · exact ih₂ hal₂ x (Multiset.mem_add.2 (Or.inl hx''))
    · exact ih₁ hal' x (Multiset.mem_add.2 (Or.inr hx''))
    · exact ih₂ hal₂ x (Multiset.mem_add.2 (Or.inr hx''))

/-- A leaf of the region's own order is the whole region (available case). -/
theorem Shape.eq_avail_leaf {off k : Nat} {A R : Multiset Block}
    (h : Shape off k A R) {b : Nat} (hb : (b, k) ∈ A) :
    b = off ∧ A = {(off, k)} ∧ R = 0 := by
  cases h with
  | availLeaf off k =>
    simp at hb
    simp [hb]
  | resvLeaf off k => simp at hb
  | @node off k A₁ R₁ A₂ R₂ h₁ h₂ hnm =>
    exfalso
    rcases Multiset.mem_add.1 hb with hb' | hb'
    · have := h₁.order_le (b, k + 1) (Multiset.mem_add.2 (Or.inl hb'))
      simp at this
    · have := h₂.order_le (b, k + 1) (Multiset.mem_add.2 (Or.inl hb'))
      simp at this

/-- A leaf of the region's own order is the whole region (reserved case). -/
theorem Shape.eq_resv_leaf {off k : Nat} {A R : Multiset Block}
    (h : Shape off k A R) {b : Nat} (hb : (b, k) ∈ R) :
    b = off ∧ A = 0 ∧ R = {(off, k)} := by
  cases h with
  | availLeaf off k => simp at hb
  | resvLeaf off k =>
    simp at hb
    simp [hb]
  | @node off k A₁ R₁ A₂ R₂ h₁ h₂ hnm =>
    exfalso
    rcases Multiset.mem_add.1 hb with hb' | hb'
    · have := h₁.order_le (b, k + 1) (Multiset.mem_add.2 (Or.inr hb'))
      simp at this
    · have := h₂.order_le (b, k + 1) (Multiset.mem_add.2 (Or.inr hb'))
      simp at this

/-- The region's own start offset is the start of some leaf. -/
theorem Shape.leftmost {off k : Nat} {A R : Multiset Block}
    (h : Shape off k A R) : ∃ j, j ≤ k ∧ ((off, j) ∈ A ∨ (off, j) ∈ R) := by
  induction h with
  | availLeaf off k => exact ⟨k, le_rfl, Or.inl (by simp)⟩
  | resvLeaf off k => exact ⟨k, le_rfl, Or.inr (by simp)⟩
  | @node off k A₁ R₁ A₂ R₂ h₁ h₂ hnm ih₁ ih₂ =>
    obtain ⟨j, hj, hm⟩ := ih₁
    refine ⟨j, le_trans hj (Nat.le_succ _), ?_⟩
    rcases hm with hm | hm
    · exact Or.inl (Multiset.mem_add.2 (Or.inl hm))
    · exact Or.inr (Multiset.mem_add.2 (Or.inl hm))

/-- Distinct leaves (and distinct copies of one leaf) occupy disjoint
regions. -/
theorem Shape.disj {off k : Nat} {A R : Multiset Block}
    (h : Shape off k A R) : ∀ x ∈ A + R, ∀ y ∈ (A + R).erase x,
      y.1 + 2 ^ y.2 ≤ x.1 ∨ x.1 + 2 ^ x.2 ≤ y.1 := by
  induction h with
  | availLeaf off k =>
    intro x hx y hy
    simp at hx
    subst hx
    simp at hy
  | resvLeaf off k =>
    intro x hx y hy
    simp at hx
    subst hx
    simp at hy
  | @node off k A₁ R₁ A₂ R₂ h₁ h₂ hnm ih₁ ih₂ =>
    intro x hx y hy
    have hM : A₁ + A₂ + (R₁ + R₂) = A₁ + R₁ + (A₂ + R₂) := by
      simp [add_comm, add_assoc, add_left_comm]
    rw [hM] at hx hy
    rcases Multiset.mem_add.1 hx with hm | hm
    · rw [Multiset.erase_add_left_pos _ hm] at hy
      rcases Multiset.mem_add.1 hy with hy' | hy'
      · exact ih₁ x hm y hy'
      · right
        have hb1 := (h₁.bounds x hm).2
        have hb2 := (h₂.bounds y hy').1
        omega
    · rw [Multiset.erase_add_right_pos _ hm] at hy
      rcases Multiset.mem_add.1 hy with hy' | hy'
      · left
        have hb1 := (h₁.bounds y hy').2
        have hb2 := (h₂.bounds x hm).1
        omega
      · exact ih₂ x hm y hy'

/-- At most one copy of any leaf. -/
theorem Shape.count_le_one {off k : Nat} {A R : Multiset Block}
    (h : Shape off k A R) (x : Block) : (A + R).count x ≤ 1 := by
  by_contra hc
  have hx : x ∈ A + R := by
    rw [← Multiset.count_pos]
    omega
  have hx' : x ∈ (A + R).erase x := by
    rw [← Multiset.count_pos, Multiset.count_erase_self]
    omega
  have := h.disj x hx x hx'
  have : (0 : Nat) < 2 ^ x.2 := Nat.pos_pow_of_pos _ (by norm_num)
  omega

/-- Leaf offsets determine leaves: two members at the same offset are the
same block. -/
theorem Shape.offset_inj {off k : Nat} {A R : Multiset Block}
    (h : Shape off k A R) {x y : Block} (hx : x ∈ A + R) (hy : y ∈ A + R)
    (hxy : x.1 = y.1) : x = y := by
  by_contra hne
  have hy' : y ∈ (A + R).erase x := (Multiset.mem_erase_of_ne
    (fun hc => hne hc.symm)).2 hy
  have := h.disj x hx y hy'
  have h1 : (0 : Nat) < 2 ^ x.2 := Nat.pos_pow_of_pos _ (by norm_num)
  have h2 : (0 : Nat) < 2 ^ y.2 := Nat.pos_pow_of_pos _ (by norm_num)
  omega

/-- Turning one available leaf into a reserved leaf (what popping a block
off its free list does to the tree). -/
theorem Shape.pick {off k : Nat} {A R : Multiset Block}
    (h : Shape off k A R) : ∀ {b j : Nat}, (b, j) ∈ A →
    Shape off k (A.erase (b, j)) ((b, j) ::ₘ R) := by
  induction h with
  | availLeaf off k =>
    intro b j hb
    simp only [Multiset.mem_singleton, Prod.mk.injEq] at hb
    obtain ⟨rfl, rfl⟩ := hb
    simpa using Shape.resvLeaf b j
  | resvLeaf off k =>
    intro b j hb
    simp at hb
  | @node off k A₁ R₁ A₂ R₂ h₁ h₂ hnm ih₁ ih₂ =>
    intro b j hb
    rcases Multiset.mem_add.1 hb with hm | hm
    · rw [Multiset.erase_add_left_pos _ hm, ← Multiset.cons_add]
      exact Shape.node (ih₁ hm) h₂
        (fun hc => hnm ⟨Multiset.mem_of_mem_erase hc.1, hc.2⟩)
    · rw [Multiset.erase_add_right_pos _ hm, ← Multiset.add_cons]
      exact Shape.node h₁ (ih₂ hm)
        (fun hc => hnm ⟨hc.1, Multiset.mem_of_mem_erase hc.2⟩)

/-- Splitting a reserved leaf of order `j + 1` into a reserved lower half
and an available upper half of order `j` (what `split` does to the tree). -/
theorem Shape.split_leaf {off k : Nat} {A R : Multiset Block}
    (h : Shape off k A R) : ∀ {b j : Nat}, (b, j + 1) ∈ R →
    Shape off k ((b + 2 ^ j, j) ::ₘ A) ((b, j) ::ₘ R.erase (b, j + 1)) := by
  induction h with
  | availLeaf off k =>
    intro b j hb
    simp at hb
  | resvLeaf off k =>
    intro b j hb
    simp only [Multiset.mem_singleton, Prod.mk.injEq] at hb
    obtain ⟨rfl, rfl⟩ := hb
    have hn := Shape.node (Shape.resvLeaf b j)
      (Shape.availLeaf (b + 2 ^ j) j) (by simp)
    simpa using hn
  | @node off k A₁ R₁ A₂ R₂ h₁ h₂ hnm ih₁ ih₂ =>
    intro b j hb
    rcases Multiset.mem_add.1 hb with hm | hm
    · have hj : j ≠ k := by
        have := h₁.order_le (b, j + 1) (Multiset.mem_add.2 (Or.inr hm))
        simp at this
        omega
      rw [Multiset.erase_add_left_pos _ hm, ← Multiset.cons_add,
        ← Multiset.cons_add]
      refine Shape.node (ih₁ hm) h₂ (fun hc => ?_)
      rcases Multiset.mem_cons.1 hc.1 with hx | hx
      · have h2 := congrArg Prod.snd hx
        simp at h2
        exact hj h2.symm
      · exact hnm ⟨hx, hc.2⟩
    · have hj : j ≠ k := by
        have := h₂.order_le (b, j + 1) (Multiset.mem_add.2 (Or.inr hm))
        simp at this
        omega
      rw [Multiset.erase_add_right_pos _ hm, ← Multiset.add_cons,
        ← Multiset.add_cons]
      refine Shape.node h₁ (ih₂ hm) (fun hc => ?_)
      rcases Multiset.mem_cons.1 hc.2 with hx | hx
      · have h2 := congrArg Prod.snd hx
        simp at h2
        exact hj h2.symm
      · exact hnm ⟨hc.1, hx⟩

/-- The XOR buddy of the lower half of an aligned order-`(k+1)` region is
the upper half. -/
theorem sib_left {k off : Nat} (hal : 2 ^ (k + 1) ∣ off) :
    off ^^^ 2 ^ k = off + 2 ^ k :=
  xor_two_pow_of_dvd_succ hal

/-- The XOR buddy of the upper half of an aligned order-`(k+1)` region is
the lower half. -/
theorem sib_right {k off : Nat} (hal : 2 ^ (k + 1) ∣ off) :
    (off + 2 ^ k) ^^^ 2 ^ k = off := by
  have hpk : (0 : Nat) < 2 ^ k := Nat.pos_pow_of_pos _ (by norm_num)
  have hp := two_pow_succ_eq k
  have hd : 2 ^ k ∣ off + 2 ^ k :=
    dvd_add (dvd_trans (pow_dvd_pow 2 (Nat.le_succ k)) hal) dvd_rfl
  have hnd : ¬ 2 ^ (k + 1) ∣ off + 2 ^ k := by
    intro hc
    have h2 := Nat.dvd_sub' hc hal
    rw [Nat.add_sub_cancel_left] at h2
    have := Nat.le_of_dvd hpk h2
    omega
  obtain ⟨hx, -, -⟩ := xor_two_pow_sub hd hnd
  rw [hx, Nat.add_sub_cancel]

/-- The XOR buddy of an order-`j` block strictly inside an aligned
order-`m` region stays inside that region. -/
theorem sib_mem_same_half {j m b c0 : Nat} (hj : j < m) (hc0 : 2 ^ m ∣ c0)
    (hb : 2 ^ j ∣ b) (h1 : c0 ≤ b) (h2 : b + 2 ^ j ≤ c0 + 2 ^ m) :
    c0 ≤ b ^^^ 2 ^ j ∧ (b ^^^ 2 ^ j) + 2 ^ j ≤ c0 + 2 ^ m := by
  have hpj : (0 : Nat) < 2 ^ j := Nat.pos_pow_of_pos _ (by norm_num)
  have hdj1 : (2 : Nat) ^ (j + 1) ∣ c0 :=
    dvd_trans (pow_dvd_pow 2 (by omega)) hc0
  have hdjm : (2 : Nat) ^ (j + 1) ∣ 2 ^ m := pow_dvd_pow 2 (by omega)
  have hpj1 : (2 : Nat) ^ (j + 1) = 2 ^ j + 2 ^ j := two_pow_succ_eq j
  rcases sib_cases hb with ⟨hdvd, hx⟩ | ⟨hndvd, hle, hx, hdvd⟩
  · rw [hx]
    constructor
    · omega
    · -- D := c0 + 2^m - b is divisible by 2^(j+1) and at least 2^j, so at
      -- least 2^(j+1)
      have hD : 2 ^ (j + 1) ∣ c0 + 2 ^ m - b :=
        Nat.dvd_sub' (dvd_add hdj1 hdjm) hdvd
      have hDpos : 0 < c0 + 2 ^ m - b := by omega
      have := Nat.le_of_dvd hDpos hD
      omega
  · rw [hx]
    have hdjc : (2 : Nat) ^ j ∣ c0 := dvd_trans (pow_dvd_pow 2 (by omega)) hc0
    constructor
    · -- if b - 2^j < c0 then b - c0 < 2^j, divisible by 2^j, so b = c0;
      -- but then 2^(j+1) would divide 2^j
      by_contra hcon
      have hblt : b < c0 + 2 ^ j := by omega
      have hdiff : (2 : Nat) ^ j ∣ b - c0 := Nat.dvd_sub' hb hdjc
      have hbeq : b = c0 := by
        rcases Nat.eq_zero_or_pos (b - c0) with h' | h'
        · omega
        · have := Nat.le_of_dvd h' hdiff
          omega
      subst hbeq
      have h2' := Nat.dvd_sub' hdj1 hdvd
      have hsub : b - (b - 2 ^ j) = 2 ^ j := by omega
      rw [hsub] at h2'
      have := Nat.le_of_dvd hpj h2'
      omega
    · omega

/-- The XOR buddy offset of any leaf below the top order is the start of
some leaf (of order at most the block's own). -/
theorem Shape.sibling_leaf {off k : Nat} {A R : Multiset Block}
    (h : Shape off k A R) : ∀ {b j : Nat}, 2 ^ k ∣ off → (b, j) ∈ A + R →
    j < k →
    ∃ j', j' ≤ j ∧ ((b ^^^ 2 ^ j, j') ∈ A ∨ (b ^^^ 2 ^ j, j') ∈ R) := by
  induction h with
  | availLeaf o m =>
    intro b j hal hb hj
    simp at hb
    omega
  | resvLeaf o m =>
    intro b j hal hb hj
    simp at hb
    omega
  | @node o m A₁ R₁ A₂ R₂ h₁ h₂ hnm ih₁ ih₂ =>
    intro b j hal hb hj
    have hal' : 2 ^ m ∣ o := dvd_trans (pow_dvd_pow 2 (Nat.le_succ m)) hal
    have hal₂ : 2 ^ m ∣ o + 2 ^ m := dvd_add hal' dvd_rfl
    have hmem : (b, j) ∈ A₁ + R₁ ∨ (b, j) ∈ A₂ + R₂ := by
      rcases Multiset.mem_add.1 hb with hx' | hx' <;>
        rcases Multiset.mem_add.1 hx' with hx'' | hx''
      · exact Or.inl (Multiset.mem_add.2 (Or.inl hx''))
      · exact Or.inr (Multiset.mem_add.2 (Or.inl hx''))
      · exact Or.inl (Multiset.mem_add.2 (Or.inr hx''))
      · exact Or.inr (Multiset.mem_add.2 (Or.inr hx''))
    rcases Nat.lt_or_ge j m with hjk | hjk
    · rcases hmem with hm | hm
      · obtain ⟨j', hj', hmem'⟩ := ih₁ hal' hm hjk
        refine ⟨j', hj', ?_⟩
        rcases hmem' with h' | h'
        · exact Or.inl (Multiset.mem_add.2 (Or.inl h'))
        · exact Or.inr (Multiset.mem_add.2 (Or.inl h'))
      · obtain ⟨j', hj', hmem'⟩ := ih₂ hal₂ hm hjk
        refine ⟨j', hj', ?_⟩
        rcases hmem' with h' | h'
        · exact Or.inl (Multiset.mem_add.2 (Or.inr h'))
        · exact Or.inr (Multiset.mem_add.2 (Or.inr h'))
    · rcases hmem with hm | hm
      · have hjle : j ≤ m := by
          have := h₁.order_le (b, j) hm
          simpa using this
        have hjeq : j = m := by omega
        rw [hjeq] at hm ⊢
        have hb_off : b = o := by
          rcases Multiset.mem_add.1 hm with h' | h'
          · exact (h₁.eq_avail_leaf h').1
          · exact (h₁.eq_resv_leaf h').1
        subst hb_off
        rw [sib_left hal]
        obtain ⟨j', hj', hm'⟩ := h₂.leftmost
        refine ⟨j', by omega, ?_⟩
        rcases hm' with h' | h'
        · exact Or.inl (Multiset.mem_add.2 (Or.inr h'))
        · exact Or.inr (Multiset.mem_add.2 (Or.inr h'))
      · have hjle : j ≤ m := by
          have := h₂.order_le (b, j) hm
          simpa using this
        have hjeq : j = m := by omega
        rw [hjeq] at hm ⊢
        have hb_off : b = o + 2 ^ m := by
          rcases Multiset.mem_add.1 hm with h' | h'
          · exact (h₂.eq_avail_leaf h').1
          · exact (h₂.eq_resv_leaf h').1
        subst hb_off
        rw [sib_right hal]
        obtain ⟨j', hj', hm'⟩ := h₁.leftmost
        refine ⟨j', by omega, ?_⟩
        rcases hm' with h' | h'
        · exact Or.inl (Multiset.mem_add.2 (Or.inl h'))
        · exact Or.inr (Multiset.mem_add.2 (Or.inl h'))

/-- Coalescing: a reserved leaf whose XOR buddy is an available leaf of the
same order merges with it into one reserved leaf of the next order, at the
lower of the two offsets. -/
theorem Shape.merge {off k : Nat} {A R : Multiset Block}
    (h : Shape off k A R) : ∀ {b j : Nat}, 2 ^ k ∣ off → (b, j) ∈ R →
    (b ^^^ 2 ^ j, j) ∈ A →
    Shape off k (A.erase (b ^^^ 2 ^ j, j))
      ((min b (b ^^^ 2 ^ j), j + 1) ::ₘ R.erase (b, j)) := by
  induction h with
  | availLeaf o m =>
    intro b j hal hb hbb
    simp at hb
  | resvLeaf o m =>
    intro b j hal hb hbb
    simp at hbb
  | @node o m A₁ R₁ A₂ R₂ h₁ h₂ hnm ih₁ ih₂ =>
    intro b j hal hb hbb
    have hal' : 2 ^ m ∣ o := dvd_trans (pow_dvd_pow 2 (Nat.le_succ m)) hal
    have hal₂ : 2 ^ m ∣ o + 2 ^ m := dvd_add hal' dvd_rfl
    have hpj : (0 : Nat) < 2 ^ j := Nat.pos_pow_of_pos _ (by norm_num)
    have hdb : 2 ^ j ∣ b :=
      (Shape.node h₁ h₂ hnm).aligned hal (b, j) (Multiset.mem_add.2 (Or.inr hb))
    rcases Nat.lt_or_ge j m with hjk | hjk
    · rcases Multiset.mem_add.1 hb with hm | hm
      · have hbound := h₁.bounds (b, j) (Multiset.mem_add.2 (Or.inr hm))
        obtain ⟨hc1, hc2⟩ :=
          sib_mem_same_half hjk hal' hdb hbound.1 hbound.2
        have hcA : (b ^^^ 2 ^ j, j) ∈ A₁ := by
          rcases Multiset.mem_add.1 hbb with h' | h'
          · exact h'
          · exfalso
            have hlow := (h₂.bounds _ (Multiset.mem_add.2 (Or.inl h'))).1
            simp only at hlow
            omega
        rw [Multiset.erase_add_left_pos _ hcA,
          Multiset.erase_add_left_pos _ hm, ← Multiset.cons_add]
        exact Shape.node (ih₁ hal' hm hcA) h₂
          (fun hc => hnm ⟨Multiset.mem_of_mem_erase hc.1, hc.2⟩)
      · have hbound := h₂.bounds (b, j) (Multiset.mem_add.2 (Or.inr hm))
        obtain ⟨hc1, hc2⟩ :=
          sib_mem_same_half hjk hal₂ hdb hbound.1 hbound.2
        have hcA : (b ^^^ 2 ^ j, j) ∈ A₂ := by
          rcases Multiset.mem_add.1 hbb with h' | h'
          · exfalso
            have hhigh := (h₁.bounds _ (Multiset.mem_add.2 (Or.inl h'))).2
            simp only at hhigh
            omega
          · exact h'
        rw [Multiset.erase_add_right_pos _ hcA,
          Multiset.erase_add_right_pos _ hm, ← Multiset.add_cons]
        exact Shape.node h₁ (ih₂ hal₂ hm hcA)
          (fun hc => hnm ⟨hc.1, Multiset.mem_of_mem_erase hc.2⟩)
    · rcases Multiset.mem_add.1 hb with hm | hm
      · have hjle : j ≤ m := by
          have := h₁.order_le (b, j) (Multiset.mem_add.2 (Or.inr hm))
          simpa using this
        have hjeq : j = m := by omega
        rw [hjeq] at hm hbb ⊢
        obtain ⟨hb_off, hA₁, hR₁⟩ := h₁.eq_resv_leaf hm
        subst hb_off
        subst hA₁
        subst hR₁
        rw [sib_left hal] at hbb ⊢
        have hbb₂ : (b + 2 ^ m, m) ∈ A₂ := by
          simpa using hbb
        obtain ⟨-, hA₂, hR₂⟩ := h₂.eq_avail_leaf hbb₂
        subst hA₂
        subst hR₂
        have hmin : min b (b + 2 ^ m) = b := by omega
        rw [hmin]
        have hz := Shape.resvLeaf b (m + 1)
        simpa using hz
      · have hjle : j ≤ m := by
          have := h₂.order_le (b, j) (Multiset.mem_add.2 (Or.inr hm))
          simpa using this
        have hjeq : j = m := by omega
        rw [hjeq] at hm hbb ⊢
        obtain ⟨hb_off, hA₂, hR₂⟩ := h₂.eq_resv_leaf hm
        subst hA₂
        subst hR₂
        subst hb_off
        rw [sib_right hal] at hbb ⊢
        have hbb₁ : (o, m) ∈ A₁ := by
          simpa using hbb
        obtain ⟨-, hA₁, hR₁⟩ := h₁.eq_avail_leaf hbb₁
        subst hA₁
        subst hR₁
        have hpm : (0 : Nat) < 2 ^ m := Nat.pos_pow_of_pos _ (by norm_num)
        have hmin : min (o + 2 ^ m) o = o := by omega
        rw [hmin]
        have hz := Shape.resvLeaf o (m + 1)
        simpa using hz

/-- Inserting the freed block: a reserved leaf whose XOR buddy is not an
available leaf of the same order may become available without violating
the no-merge invariant. -/
theorem Shape.insert_avail {off k : Nat} {A R : Multiset Block}
    (h : Shape off k A R) : ∀ {b j : Nat}, 2 ^ k ∣ off → (b, j) ∈ R →
    (b ^^^ 2 ^ j, j) ∉ A →
    Shape off k ((b, j) ::ₘ A) (R.erase (b, j)) := by
  induction h with
  | availLeaf o m =>
    intro b j hal hb hnb
    simp at hb
  | resvLeaf o m =>
    intro b j hal hb hnb
    simp only [Multiset.mem_singleton, Prod.mk.injEq] at hb
    obtain ⟨rfl, rfl⟩ := hb
    simpa using Shape.availLeaf b j
  | @node o m A₁ R₁ A₂ R₂ h₁ h₂ hnm ih₁ ih₂ =>
    intro b j hal hb hnb
    have hal' : 2 ^ m ∣ o := dvd_trans (pow_dvd_pow 2 (Nat.le_succ m)) hal
    have hal₂ : 2 ^ m ∣ o + 2 ^ m := dvd_add hal' dvd_rfl
    rcases Nat.lt_or_ge j m with hjk | hjk
    · rcases Multiset.mem_add.1 hb with hm | hm
      · have hres := ih₁ hal' hm
          (fun hc => hnb (Multiset.mem_add.2 (Or.inl hc)))
        rw [Multiset.erase_add_left_pos _ hm, ← Multiset.cons_add]
        refine Shape.node hres h₂ (fun hc => ?_)
        rcases Multiset.mem_cons.1 hc.1 with hx | hx
        · have h2 := congrArg Prod.snd hx
          simp at h2
          omega
        · exact hnm ⟨hx, hc.2⟩
      · have hres := ih₂ hal₂ hm
          (fun hc => hnb (Multiset.mem_add.2 (Or.inr hc)))
        rw [Multiset.erase_add_right_pos _ hm, ← Multiset.add_cons]
        refine Shape.node h₁ hres (fun hc => ?_)
        rcases Multiset.mem_cons.1 hc.2 with hx | hx
        · have h2 := congrArg Prod.snd hx
          simp at h2
          omega
        · exact hnm ⟨hc.1, hx⟩
    · rcases Multiset.mem_add.1 hb with hm | hm
      · have hjle : j ≤ m := by
          have := h₁.order_le (b, j) (Multiset.mem_add.2 (Or.inr hm))
          simpa using this
        have hjeq : j = m := by omega
        rw [hjeq] at hm ⊢
        rw [hjeq] at hnb
        obtain ⟨hb_off, hA₁, hR₁⟩ := h₁.eq_resv_leaf hm
        subst hb_off
        subst hA₁
        subst hR₁
        rw [sib_left hal] at hnb
        have hn2 : (b + 2 ^ m, m) ∉ A₂ := fun hc =>
          hnb (Multiset.mem_add.2 (Or.inr hc))
        have hres := Shape.node (Shape.availLeaf b m) h₂
          (fun hc => hn2 hc.2)
        simpa using hres
      · have hjle : j ≤ m := by
          have := h₂.order_le (b, j) (Multiset.mem_add.2 (Or.inr hm))
          simpa using this
        have hjeq : j = m := by omega
        rw [hjeq] at hm ⊢
        rw [hjeq] at hnb
        obtain ⟨hb_off, hA₂, hR₂⟩ := h₂.eq_resv_leaf hm
        subst hA₂
        subst hR₂
        subst hb_off
        rw [sib_right hal] at hnb
        have hn1 : (o, m) ∉ A₁ := fun hc =>
          hnb (Multiset.mem_add.2 (Or.inl hc))
        have hres := Shape.node h₁ (Shape.availLeaf (o + 2 ^ m) m)
          (fun hc => hn1 hc.1)
        have e1 : (o + 2 ^ m, m) ::ₘ A₁ = A₁ + {(o + 2 ^ m, m)} := by
          rw [add_comm A₁ {(o + 2 ^ m, m)}, Multiset.singleton_add]
        have e2 : (R₁ + {(o + 2 ^ m, m)}).erase (o + 2 ^ m, m) = R₁ := by
          rw [Multiset.erase_add_right_pos _ (by simp),
            Multiset.erase_singleton, add_zero]
        simp only [add_zero]
        rw [e1, e2]
        simpa using hres

/-- With no reserved leaves the no-merge invariant forces a single
available leaf covering the whole region. -/
theorem Shape.all_avail {off k : Nat} {A : Multiset Block}
    (h : Shape off k A 0) : A = {(off, k)} := by
  generalize hR : (0 : Multiset Block) = R at h
  induction h with
  | availLeaf o m => rfl
  | resvLeaf o m =>
    exfalso
    have : (o, m) ∈ ({(o, m)} : Multiset Block) := by simp
    rw [← hR] at this
    simp at this
  | @node o m A₁ R₁ A₂ R₂ h₁ h₂ hnm ih₁ ih₂ =>
    exfalso
    have hz : R₁ = 0 ∧ R₂ = 0 := by
      constructor <;> [skip; skip] <;> {
        rw [← Multiset.card_eq_zero]
        have hc : Multiset.card (R₁ + R₂) = 0 := by rw [← hR]; simp
        rw [Multiset.card_add] at hc
        omega
      }
    obtain ⟨hz₁, hz₂⟩ := hz
    have hA₁ := ih₁ hz₁.symm
    have hA₂ := ih₂ hz₂.symm
    exact hnm ⟨by rw [hA₁]; simp, by rw [hA₂]; simp⟩

/-- No leaf is simultaneously available and reserved. -/
theorem Shape.not_mem_both {off k : Nat} {A R : Multiset Block}
    (h : Shape off k A R) (x : Block) (hA : x ∈ A) (hR : x ∈ R) :
    False := by
  have h1 := Multiset.count_pos.2 hA
  have h2 := Multiset.count_pos.2 hR
  have := h.count_le_one x
  rw [Multiset.count_add] at this
  omega

/-- Available leaves occur exactly once. -/
theorem Shape.not_mem_erase_self_A {off k : Nat} {A R : Multiset Block}
    (h : Shape off k A R) (x : Block) : x ∉ A.erase x := by
  intro hc
  have h1 := Multiset.count_pos.2 hc
  rw [Multiset.count_erase_self] at h1
  have := h.count_le_one x
  rw [Multiset.count_add] at this
  omega

namespace BuddyPool

/-- The pool invariant relating a state to its tree of blocks: the tree
partitions the region with the no-merge property, every free list holds
exactly (with multiplicity) the available leaves of its order, and the
header stored at each leaf's offset carries its tag and order. -/
structure Inv (s : BuddyPool) (A R : Multiset Block) : Prop where
  shape : Shape 0 s.kval_m A R
  lists : ∀ k b, ((s.avail k).blocks).count b = A.count (b, k)
  hdrA : ∀ x ∈ A, s.headers x.1 = ⟨BLOCK_AVAIL, x.2⟩
  hdrR : ∀ x ∈ R, s.headers x.1 = ⟨BLOCK_RESERVED, x.2⟩

theorem Inv.mem_avail_of_head {s : BuddyPool} {A R : Multiset Block}
    {k b : Nat} {t : List Nat} (h : Inv s A R)
    (hb : (s.avail k).blocks = b :: t) : (b, k) ∈ A := by
  have hc := h.lists k b
  rw [hb, List.count_cons_self] at hc
  rw [← Multiset.count_pos]
  omega

/-- Unlinking the head of a free list turns the corresponding available
leaf into a reserved one. -/
theorem Inv.unlink {s : BuddyPool} {A R : Multiset Block} (h : Inv s A R)
    {k b : Nat} (hmem : (b, k) ∈ A) :
    Inv (s.remove_from_avail b) (A.erase (b, k)) ((b, k) ::ₘ R) := by
  have hmemAR : (b, k) ∈ A + R := Multiset.mem_add.2 (Or.inl hmem)
  have hkv : s.headers b = ⟨BLOCK_AVAIL, k⟩ := h.hdrA _ hmem
  refine ⟨h.shape.pick hmem, ?_, ?_, ?_⟩
  · intro k' b'
    show (((s.avail k').blocks).erase b).count b' =
      (A.erase (b, k)).count (b', k')
    by_cases hbk : (b', k') = (b, k)
    · rw [Prod.mk.injEq] at hbk
      obtain ⟨rfl, rfl⟩ := hbk
      rw [List.count_erase_self, Multiset.count_erase_self, h.lists]
    · rw [Multiset.count_erase_of_ne hbk]
      by_cases hbb : b' = b
      · subst hbb
        have hz : A.count (b', k') = 0 := by
          by_contra hc
          have hmem' : (b', k') ∈ A := by
            rw [← Multiset.count_pos]
            omega
          exact hbk (h.shape.offset_inj
            (Multiset.mem_add.2 (Or.inl hmem')) hmemAR rfl)
        rw [List.count_erase_self, h.lists k' b', hz]
      · rw [List.count_erase_of_ne hbb, h.lists k' b']
  · intro x hx
    have hxA : x ∈ A := Multiset.mem_of_mem_erase hx
    have hxne : x.1 ≠ b := by
      intro hc
      have hxx : x = (b, k) :=
        h.shape.offset_inj (Multiset.mem_add.2 (Or.inl hxA)) hmemAR hc
      rw [hxx] at hx
      exact h.shape.not_mem_erase_self_A (b, k) hx
    show upd s.headers b ⟨BLOCK_RESERVED, (s.headers b).kval⟩ x.1 =
      ⟨BLOCK_AVAIL, x.2⟩
    rw [upd_ne _ _ hxne]
    exact h.hdrA x hxA
  · intro x hx
    rcases Multiset.mem_cons.1 hx with hx' | hx'
    · subst hx'
      show upd s.headers b ⟨BLOCK_RESERVED, (s.headers b).kval⟩ b =
        ⟨BLOCK_RESERVED, k⟩
      rw [upd_same, hkv]
    · have hxne : x.1 ≠ b := by
        intro hc
        have hxx : x = (b, k) :=
          h.shape.offset_inj (Multiset.mem_add.2 (Or.inr hx')) hmemAR hc
        rw [hxx] at hx'
        exact h.shape.not_mem_both (b, k) hmem hx'
      show upd s.headers b ⟨BLOCK_RESERVED, (s.headers b).kval⟩ x.1 =
        ⟨BLOCK_RESERVED, x.2⟩
      rw [upd_ne _ _ hxne]
      exact h.hdrR x hx'

/-- Unlinking the head of a free list turns the corresponding available
leaf into a reserved one. -/
theorem Inv.pick_head {s : BuddyPool} {A R : Multiset Block} (h : Inv s A R)
    {k b : Nat} {t : List Nat} (hb : (s.avail k).blocks = b :: t) :
    Inv (s.remove_from_avail b) (A.erase (b, k)) ((b, k) ::ₘ R) :=
  h.unlink (h.mem_avail_of_head hb)

end BuddyPool

/-- Reserved leaves occur exactly once. -/
theorem Shape.not_mem_erase_self_R {off k : Nat} {A R : Multiset Block}
    (h : Shape off k A R) (x : Block) : x ∉ R.erase x := by
  intro hc
  have h1 := Multiset.count_pos.2 hc
  rw [Multiset.count_erase_self] at h1
  have := h.count_le_one x
  rw [Multiset.count_add] at this
  omega

/-- No other leaf's start offset lies inside a given leaf's region. -/
theorem Shape.offsets_away {off k : Nat} {A R : Multiset Block}
    (h : Shape off k A R) {y x : Block} (hy : y ∈ A + R) (hx : x ∈ A + R)
    (hne : x ≠ y) {c : Nat} (hc : y.1 ≤ c) (hcc : c < y.1 + 2 ^ y.2) :
    x.1 ≠ c := by
  intro hceq
  have hx' : x ∈ (A + R).erase y := (Multiset.mem_erase_of_ne hne).2 hx
  have hdisj := h.disj y hy x hx'
  have hpx : (0 : Nat) < 2 ^ x.2 := Nat.pos_pow_of_pos _ (by norm_num)
  omega

namespace BuddyPool

/-- `split` on a reserved block of order `j + 1`: the lower half stays
reserved at order `j`, the upper half becomes available at order `j` and
joins the tail of `avail[j]`. -/
theorem Inv.split_op {s : BuddyPool} {A R : Multiset Block} (h : Inv s A R)
    {b j : Nat} (hb : (b, j + 1) ∈ R) :
    Inv (s.split b) ((b + 2 ^ j, j) ::ₘ A) ((b, j) ::ₘ R.erase (b, j + 1)) := by
  have hmemAR : (b, j + 1) ∈ A + R := Multiset.mem_add.2 (Or.inr hb)
  have hhb : s.headers b = ⟨BLOCK_RESERVED, j + 1⟩ := h.hdrR _ hb
  have hdal : 2 ^ (j + 1) ∣ b :=
    h.shape.aligned (dvd_zero _) _ hmemAR
  have hbud : b ^^^ 2 ^ j = b + 2 ^ j := xor_two_pow_of_dvd_succ hdal
  have hpj : (0 : Nat) < 2 ^ j := Nat.pos_pow_of_pos _ (by norm_num)
  have hpj1 : (2 : Nat) ^ (j + 1) = 2 ^ j + 2 ^ j := two_pow_succ_eq j
  have hS : s.split b = { s with
      headers := upd (upd (upd s.headers b ⟨BLOCK_RESERVED, j⟩)
        (b + 2 ^ j) ⟨BLOCK_AVAIL, j⟩) (b + 2 ^ j) ⟨BLOCK_AVAIL, j⟩
      avail := upd s.avail j ⟨(s.avail j).tag, (s.avail j).kval,
        (s.avail j).blocks ++ [b + 2 ^ j]⟩ } := by
    simp only [split, add_to_avail, buddy_calc, hhb, upd_same,
      Nat.add_sub_cancel, hbud]
  rw [hS]
  -- every other leaf's offset avoids both halves
  have haway : ∀ x ∈ A + R, x ≠ (b, j + 1) → x.1 ≠ b ∧ x.1 ≠ b + 2 ^ j := by
    intro x hx hne
    constructor
    · exact h.shape.offsets_away hmemAR hx hne (le_refl b)
        (by show b < b + 2 ^ (j + 1); omega)
    · exact h.shape.offsets_away hmemAR hx hne
        (by show b ≤ b + 2 ^ j; omega)
        (by show b + 2 ^ j < b + 2 ^ (j + 1); omega)
  refine ⟨h.shape.split_leaf hb, ?_, ?_, ?_⟩
  · intro k' b'
    show (upd s.avail j ⟨(s.avail j).tag, (s.avail j).kval,
      (s.avail j).blocks ++ [b + 2 ^ j]⟩ k').blocks.count b' = _
    by_cases hk : k' = j
    · rw [hk, upd_same]
      show ((s.avail j).blocks ++ [b + 2 ^ j]).count b' = _
      rw [List.count_append, h.lists]
      by_cases hbb : b' = b + 2 ^ j
      · subst hbb
        rw [Multiset.count_cons_self]
        simp
      · rw [Multiset.count_cons_of_ne (by simp [hbb])]
        simp [List.count_singleton, hbb]
    · rw [upd_ne _ _ hk, h.lists,
        Multiset.count_cons_of_ne (by simp [hk])]
  · intro x hx
    rcases Multiset.mem_cons.1 hx with hx' | hx'
    · subst hx'
      show upd (upd (upd s.headers b ⟨BLOCK_RESERVED, j⟩)
        (b + 2 ^ j) ⟨BLOCK_AVAIL, j⟩) (b + 2 ^ j) ⟨BLOCK_AVAIL, j⟩
        (b + 2 ^ j) = _
      rw [upd_same]
    · have hxne : x ≠ (b, j + 1) := by
        intro hc
        rw [hc] at hx'
        exact h.shape.not_mem_both (b, j + 1) hx' hb
      obtain ⟨hx1, hx2⟩ := haway x (Multiset.mem_add.2 (Or.inl hx')) hxne
      show upd (upd (upd s.headers b ⟨BLOCK_RESERVED, j⟩)
        (b + 2 ^ j) ⟨BLOCK_AVAIL, j⟩) (b + 2 ^ j) ⟨BLOCK_AVAIL, j⟩ x.1 = _
      rw [upd_ne _ _ hx2, upd_ne _ _ hx2, upd_ne _ _ hx1]
      exact h.hdrA x hx'
  · intro x hx
    rcases Multiset.mem_cons.1 hx with hx' | hx'
    · subst hx'
      have hbne : b ≠ b + 2 ^ j := by omega
      show upd (upd (upd s.headers b ⟨BLOCK_RESERVED, j⟩)
        (b + 2 ^ j) ⟨BLOCK_AVAIL, j⟩) (b + 2 ^ j) ⟨BLOCK_AVAIL, j⟩ b = _
      rw [upd_ne _ _ hbne, upd_ne _ _ hbne, upd_same]
    · have hxR : x ∈ R := Multiset.mem_of_mem_erase hx'
      have hxne : x ≠ (b, j + 1) := by
        intro hc
        rw [hc] at hx'
        exact h.shape.not_mem_erase_self_R (b, j + 1) hx'
      obtain ⟨hx1, hx2⟩ := haway x (Multiset.mem_add.2 (Or.inr hxR)) hxne
      show upd (upd (upd s.headers b ⟨BLOCK_RESERVED, j⟩)
        (b + 2 ^ j) ⟨BLOCK_AVAIL, j⟩) (b + 2 ^ j) ⟨BLOCK_AVAIL, j⟩ x.1 = _
      rw [upd_ne _ _ hx2, upd_ne _ _ hx2, upd_ne _ _ hx1]
      exact h.hdrR x hxR

end BuddyPool

namespace BuddyPool

/-- A successful `malloc_kval` reserves one block of the requested order
while preserving the pool invariant. -/
theorem Inv.malloc_kval_ok {s : BuddyPool} {A R : Multiset Block}
    (h : Inv s A R) {k : Nat} {s' : BuddyPool} {b : Nat}
    (hmk : s.malloc_kval k = (s', .ok b)) :
    ∃ A', Inv s' A' ((b, k) ::ₘ R) := by
  have H : ∀ d (k : Nat) (A R : Multiset Block) (s' : BuddyPool) (b : Nat),
      s.kval_m + 1 - k = d → Inv s A R →
      s.malloc_kval k = (s', .ok b) → ∃ A', Inv s' A' ((b, k) ::ₘ R) := by
    intro d
    induction d using Nat.strong_induction_on with
    | _ d ih =>
      intro k A R s' b hd h hmk
      by_cases hk : k > s.kval_m
      · rw [malloc_kval_of_gt hk] at hmk
        simp at hmk
      · rcases hb : (s.avail k).blocks with _ | ⟨b₀, t⟩
        · rw [malloc_kval_nil hk hb] at hmk
          rcases hrec : s.malloc_kval (k + 1) with ⟨s₁, r⟩
          rcases r with e₁ | b₁
          · rw [hrec] at hmk
            simp at hmk
          · rw [hrec] at hmk
            simp only [Prod.mk.injEq, Except.ok.injEq] at hmk
            obtain ⟨rfl, rfl⟩ := hmk
            obtain ⟨A₁, h₁⟩ := ih (s.kval_m + 1 - (k + 1)) (by omega)
              (k + 1) A R s₁ b₁ rfl h hrec
            refine ⟨(b₁ + 2 ^ k, k) ::ₘ A₁, ?_⟩
            have hsp := h₁.split_op (Multiset.mem_cons_self (b₁, k + 1) _)
            rwa [Multiset.erase_cons_head] at hsp
        · rw [malloc_kval_cons hk hb] at hmk
          simp only [Prod.mk.injEq, Except.ok.injEq] at hmk
          obtain ⟨rfl, rfl⟩ := hmk
          exact ⟨A.erase (b₀, k), h.pick_head hb⟩
  exact H _ k A R s' b rfl h hmk

end BuddyPool

namespace BuddyPool

/-- Converse of `get_avail_buddy_eq_some`: below the top order, an
available buddy header of matching order is found. -/
theorem get_avail_buddy_some_of {s : BuddyPool} {off : Nat}
    (h1 : (s.headers off).kval ≠ s.kval_m)
    (h2 : (s.headers (s.buddy_calc off)).tag = BLOCK_AVAIL)
    (h3 : (s.headers (s.buddy_calc off)).kval = (s.headers off).kval) :
    s.get_avail_buddy off = some (s.buddy_calc off) := by
  simp [get_avail_buddy, h1, h2, h3]

/-- A reserved leaf whose buddy is an available leaf of the same order:
unlinking the buddy and promoting the lower-addressed block to order
`j + 1` (one iteration of the coalescing loop) preserves the invariant. -/
theorem Inv.merge_inv {s : BuddyPool} {A R₀ : Multiset Block} {b j : Nat}
    (h : Inv s A ((b, j) ::ₘ R₀)) (hbud : (b ^^^ 2 ^ j, j) ∈ A) :
    Inv { s.remove_from_avail (b ^^^ 2 ^ j) with
          headers := upd (s.remove_from_avail (b ^^^ 2 ^ j)).headers
            (min b (b ^^^ 2 ^ j)) ⟨BLOCK_RESERVED, j + 1⟩ }
      (A.erase (b ^^^ 2 ^ j, j)) ((min b (b ^^^ 2 ^ j), j + 1) ::ₘ R₀) := by
  have hbR : (b, j) ∈ (b, j) ::ₘ R₀ := Multiset.mem_cons_self _ _
  have hbAR : (b, j) ∈ A + ((b, j) ::ₘ R₀) := Multiset.mem_add.2 (Or.inr hbR)
  have hsibAR : (b ^^^ 2 ^ j, j) ∈ A + ((b, j) ::ₘ R₀) :=
    Multiset.mem_add.2 (Or.inl hbud)
  have hbR₀ : (b, j) ∉ R₀ := by
    intro hc
    have h1 := h.shape.count_le_one (b, j)
    rw [Multiset.count_add, Multiset.count_cons_self] at h1
    have h2 := Multiset.count_pos.2 hc
    omega
  have h' := h.unlink hbud
  have hshape := h.shape.merge (dvd_zero _) hbR hbud
  rw [Multiset.erase_cons_head] at hshape
  refine ⟨hshape, ?_, ?_, ?_⟩
  · intro k' b'
    exact h'.lists k' b'
  · intro x hx
    have hxA : x ∈ A := Multiset.mem_of_mem_erase hx
    have hxb : x.1 ≠ b := by
      intro hc
      have hxx : x = (b, j) :=
        h.shape.offset_inj (Multiset.mem_add.2 (Or.inl hxA)) hbAR hc
      rw [hxx] at hxA
      exact h.shape.not_mem_both (b, j) hxA hbR
    have hxs : x.1 ≠ b ^^^ 2 ^ j := by
      intro hc
      have hxx : x = (b ^^^ 2 ^ j, j) :=
        h.shape.offset_inj (Multiset.mem_add.2 (Or.inl hxA)) hsibAR hc
      rw [hxx] at hx
      exact h.shape.not_mem_erase_self_A (b ^^^ 2 ^ j, j) hx
    have hxm : x.1 ≠ min b (b ^^^ 2 ^ j) := by
      rcases min_cases b (b ^^^ 2 ^ j) with hm | hm <;> rw [hm.1] <;>
        assumption
    show upd (s.remove_from_avail (b ^^^ 2 ^ j)).headers
      (min b (b ^^^ 2 ^ j)) ⟨BLOCK_RESERVED, j + 1⟩ x.1 = _
    rw [upd_ne _ _ hxm]
    exact h'.hdrA x hx
  · intro x hx
    rcases Multiset.mem_cons.1 hx with hx' | hx'
    · subst hx'
      show upd (s.remove_from_avail (b ^^^ 2 ^ j)).headers
        (min b (b ^^^ 2 ^ j)) ⟨BLOCK_RESERVED, j + 1⟩
        (min b (b ^^^ 2 ^ j)) = _
      rw [upd_same]
    · have hxR : x ∈ A + ((b, j) ::ₘ R₀) :=
        Multiset.mem_add.2 (Or.inr (Multiset.mem_cons_of_mem hx'))
      have hxb : x.1 ≠ b := by
        intro hc
        have hxx : x = (b, j) := h.shape.offset_inj hxR hbAR hc
        rw [hxx] at hx'
        exact hbR₀ hx'
      have hxs : x.1 ≠ b ^^^ 2 ^ j := by
        intro hc
        have hxx : x = (b ^^^ 2 ^ j, j) := h.shape.offset_inj hxR hsibAR hc
        have : (b ^^^ 2 ^ j, j) ∈ (b, j) ::ₘ R₀ := by
          rw [← hxx]
          exact Multiset.mem_cons_of_mem hx'
        exact h.shape.not_mem_both (b ^^^ 2 ^ j, j) hbud this
      have hxm : x.1 ≠ min b (b ^^^ 2 ^ j) := by
        rcases min_cases b (b ^^^ 2 ^ j) with hm | hm <;> rw [hm.1] <;>
          assumption
      show upd (s.remove_from_avail (b ^^^ 2 ^ j)).headers
        (min b (b ^^^ 2 ^ j)) ⟨BLOCK_RESERVED, j + 1⟩ x.1 = _
      rw [upd_ne _ _ hxm]
      exact h'.hdrR x (Multiset.mem_cons_of_mem (Multiset.mem_cons_of_mem hx'))

/-- A reserved leaf whose buddy is not an available leaf of the same
order: inserting it back into its free list (the exit of the coalescing
loop) preserves the invariant. -/
theorem Inv.insert_inv {s : BuddyPool} {A R₀ : Multiset Block} {b j : Nat}
    (h : Inv s A ((b, j) ::ₘ R₀)) (hnb : (b ^^^ 2 ^ j, j) ∉ A) :
    Inv (s.add_to_avail b) ((b, j) ::ₘ A) R₀ := by
  have hbR : (b, j) ∈ (b, j) ::ₘ R₀ := Multiset.mem_cons_self _ _
  have hbAR : (b, j) ∈ A + ((b, j) ::ₘ R₀) := Multiset.mem_add.2 (Or.inr hbR)
  have hhb : s.headers b = ⟨BLOCK_RESERVED, j⟩ := h.hdrR _ hbR
  have hbR₀ : (b, j) ∉ R₀ := by
    intro hc
    have h1 := h.shape.count_le_one (b, j)
    rw [Multiset.count_add, Multiset.count_cons_self] at h1
    have h2 := Multiset.count_pos.2 hc
    omega
  have hshape := h.shape.insert_avail (dvd_zero _) hbR hnb
  rw [Multiset.erase_cons_head] at hshape
  have hS : s.add_to_avail b = { s with
      avail := upd s.avail j ⟨(s.avail j).tag, (s.avail j).kval,
        (s.avail j).blocks ++ [b]⟩
      headers := upd s.headers b ⟨BLOCK_AVAIL, j⟩ } := by
    simp only [add_to_avail, hhb]
  rw [hS]
  refine ⟨hshape, ?_, ?_, ?_⟩
  · intro k' b'
    show (upd s.avail j ⟨(s.avail j).tag, (s.avail j).kval,
      (s.avail j).blocks ++ [b]⟩ k').blocks.count b' = _
    by_cases hk : k' = j
    · rw [hk, upd_same]
      show ((s.avail j).blocks ++ [b]).count b' = _
      rw [List.count_append, h.lists]
      by_cases hbb : b' = b
      · subst hbb
        rw [Multiset.count_cons_self]
        simp
      · rw [Multiset.count_cons_of_ne (by simp [hbb])]
        simp [List.count_singleton, hbb]
    · rw [upd_ne _ _ hk, h.lists,
        Multiset.count_cons_of_ne (by simp [hk])]
  · intro x hx
    rcases Multiset.mem_cons.1 hx with hx' | hx'
    · subst hx'
      show upd s.headers b ⟨BLOCK_AVAIL, j⟩ b = _
      rw [upd_same]
    · have hxb : x.1 ≠ b := by
        intro hc
        have hxx : x = (b, j) :=
          h.shape.offset_inj (Multiset.mem_add.2 (Or.inl hx')) hbAR hc
        rw [hxx] at hx'
        exact h.shape.not_mem_both (b, j) hx' hbR
      show upd s.headers b ⟨BLOCK_AVAIL, j⟩ x.1 = _
      rw [upd_ne _ _ hxb]
      exact h.hdrA x hx'
  · intro x hx
    have hxR : x ∈ A + ((b, j) ::ₘ R₀) :=
      Multiset.mem_add.2 (Or.inr (Multiset.mem_cons_of_mem hx))
    have hxb : x.1 ≠ b := by
      intro hc
      have hxx : x = (b, j) := h.shape.offset_inj hxR hbAR hc
      rw [hxx] at hx
      exact hbR₀ hx
    show upd s.headers b ⟨BLOCK_AVAIL, j⟩ x.1 = _
    rw [upd_ne _ _ hxb]
    exact h.hdrR x (Multiset.mem_cons_of_mem hx)

end BuddyPool

namespace BuddyPool

/-- The coalescing loop of `free_avail` preserves the pool invariant:
run on a reserved leaf with enough fuel it returns the leaf (possibly
merged with buddies into a larger one) to the free lists. -/
theorem Inv.free_go : ∀ (fuel : Nat) {s : BuddyPool} {A R₀ : Multiset Block}
    {b j : Nat}, Inv s A ((b, j) ::ₘ R₀) → s.kval_m - j < fuel →
    ∃ A', Inv (free_avail_go s b fuel) A' R₀ := by
  intro fuel
  induction fuel with
  | zero =>
    intro s A R₀ b j h hf
    omega
  | succ g ih =>
    intro s A R₀ b j h hf
    have hbR : (b, j) ∈ (b, j) ::ₘ R₀ := Multiset.mem_cons_self _ _
    have hbAR : (b, j) ∈ A + ((b, j) ::ₘ R₀) :=
      Multiset.mem_add.2 (Or.inr hbR)
    have hhb : s.headers b = ⟨BLOCK_RESERVED, j⟩ := h.hdrR _ hbR
    have hjle : j ≤ s.kval_m := h.shape.order_le (b, j) hbAR
    have hbc : s.buddy_calc b = b ^^^ 2 ^ j := by
      simp [buddy_calc, hhb]
    simp only [free_avail_go]
    rcases hgb : s.get_avail_buddy b with _ | buddy
    · -- no available buddy: insert the leaf back
      have hnb : (b ^^^ 2 ^ j, j) ∉ A := by
        by_cases hjm : j = s.kval_m
        · subst hjm
          obtain ⟨-, hA, -⟩ := h.shape.eq_resv_leaf hbR
          rw [hA]
          simp
        · intro hc
          have hhs : s.headers (b ^^^ 2 ^ j) = ⟨BLOCK_AVAIL, j⟩ :=
            h.hdrA _ hc
          have := @get_avail_buddy_some_of s b
            (by rw [hhb]; exact hjm) (by rw [hbc, hhs]) (by rw [hbc, hhs, hhb])
          rw [hgb] at this
          simp at this
      exact ⟨(b, j) ::ₘ A, h.insert_inv hnb⟩
    · -- available buddy of the same order: coalesce and recurse
      obtain ⟨hne, hbeq, htag, hkv⟩ := get_avail_buddy_eq_some hgb
      rw [hbc] at hbeq
      subst hbeq
      rw [hhb] at hne
      have hne' : j ≠ s.kval_m := hne
      have hjlt : j < s.kval_m := lt_of_le_of_ne hjle hne'
      have hbud : (b ^^^ 2 ^ j, j) ∈ A := by
        obtain ⟨j', hj'le, hmem'⟩ :=
          h.shape.sibling_leaf (dvd_zero _) hbAR hjlt
        rcases hmem' with hA' | hR'
        · have hhs : s.headers (b ^^^ 2 ^ j) = ⟨BLOCK_AVAIL, j'⟩ :=
            h.hdrA _ hA'
          rw [hhs, hhb] at hkv
          simp at hkv
          subst hkv
          exact hA'
        · have hhs : s.headers (b ^^^ 2 ^ j) = ⟨BLOCK_RESERVED, j'⟩ :=
            h.hdrR _ hR'
          rw [hhs] at htag
          simp [BLOCK_RESERVED, BLOCK_AVAIL] at htag
      have hbne : b ≠ b ^^^ 2 ^ j := by
        intro hc
        rw [← hc] at hbud
        exact h.shape.not_mem_both (b, j) hbud hbR
      have hhbud : s.headers (b ^^^ 2 ^ j) = ⟨BLOCK_AVAIL, j⟩ :=
        h.hdrA _ hbud
      have hs1b : (s.remove_from_avail (b ^^^ 2 ^ j)).headers b =
          ⟨BLOCK_RESERVED, j⟩ := by
        show upd s.headers (b ^^^ 2 ^ j)
          ⟨BLOCK_RESERVED, (s.headers (b ^^^ 2 ^ j)).kval⟩ b = _
        rw [upd_ne _ _ hbne, hhb]
      have hs1s : (s.remove_from_avail (b ^^^ 2 ^ j)).headers (b ^^^ 2 ^ j) =
          ⟨BLOCK_RESERVED, j⟩ := by
        show upd s.headers (b ^^^ 2 ^ j)
          ⟨BLOCK_RESERVED, (s.headers (b ^^^ 2 ^ j)).kval⟩ (b ^^^ 2 ^ j) = _
        rw [upd_same, hhbud]
      have hmerge := h.merge_inv hbud
      by_cases hlt : b < b ^^^ 2 ^ j
      · have hmin : min b (b ^^^ 2 ^ j) = b := Nat.min_eq_left (le_of_lt hlt)
        rw [hmin] at hmerge
        simp only [if_pos hlt, hs1b]
        exact ih hmerge (by
          show s.kval_m - (j + 1) < g
          omega)
      · have hmin : min b (b ^^^ 2 ^ j) = b ^^^ 2 ^ j :=
          Nat.min_eq_right (le_of_not_lt hlt)
        rw [hmin] at hmerge
        simp only [if_neg hlt, hs1s]
        exact ih hmerge (by
          show s.kval_m - (j + 1) < g
          omega)

end BuddyPool

namespace BuddyPool

/-- `free` on a user pointer whose block offset is a reserved leaf removes
that leaf (the coalescing loop reassembles it into the free lists). -/
theorem Inv.free_off {s : BuddyPool} {A R : Multiset Block} {o j : Nat}
    (h : Inv s A R) (hmem : (o, j) ∈ R) (q : Nat)
    (hq : q - AVAIL_SIZE = o) :
    ∃ A', Inv (s.free (some q)) A' (R.erase (o, j)) := by
  rw [← Multiset.cons_erase hmem] at h
  show ∃ A', Inv (s.free_avail (q - AVAIL_SIZE)) A' (R.erase (o, j))
  rw [hq]
  exact Inv.free_go (s.kval_m + 1) h (by omega)

/-- Freeing a list of user pointers that covers the reserved leaves'
offsets exactly (with multiplicity) drains the reserved set. -/
theorem freeMany_inv : ∀ (qs : List Nat) (s : BuddyPool)
    (A R : Multiset Block), Inv s A R →
    R.map Prod.fst = (↑(qs.map (fun q => q - AVAIL_SIZE)) : Multiset Nat) →
    ∃ A', Inv (freeMany s qs) A' 0 := by
  intro qs
  induction qs with
  | nil =>
    intro s A R h hmap
    simp only [List.map_nil, Multiset.coe_nil, Multiset.map_eq_zero] at hmap
    subst hmap
    exact ⟨A, h⟩
  | cons q qs' ih =>
    intro s A R h hmap
    have hqmem : q - AVAIL_SIZE ∈ R.map Prod.fst := by
      rw [hmap]
      simp
    obtain ⟨x, hxR, hx1⟩ := Multiset.mem_map.1 hqmem
    have hxmem : (x.1, x.2) ∈ R := by
      rw [Prod.mk.eta]
      exact hxR
    obtain ⟨A₁, h₁⟩ := h.free_off hxmem q hx1.symm
    have hmap' : (R.erase (x.1, x.2)).map Prod.fst =
        (↑(qs'.map (fun q => q - AVAIL_SIZE)) : Multiset Nat) := by
      have hR : R = (x.1, x.2) ::ₘ R.erase (x.1, x.2) :=
        (Multiset.cons_erase hxmem).symm
      have hmc : x.1 ::ₘ (R.erase (x.1, x.2)).map Prod.fst =
          x.1 ::ₘ (↑(qs'.map (fun q => q - AVAIL_SIZE)) : Multiset Nat) := by
        rw [← Multiset.map_cons, ← hR, hmap]
        simp [hx1]
      exact (Multiset.cons_inj_right _).1 hmc
    have hfree : freeMany s (q :: qs') = freeMany (s.free (some q)) qs' := rfl
    rw [hfree]
    exact ih _ A₁ _ h₁ hmap'

/-- A successful run of `malloc` requests reserves blocks whose offsets
are exactly the returned user pointers minus the header size. -/
theorem mallocMany_inv : ∀ (ns : List Nat) (s : BuddyPool)
    (A R : Multiset Block) (s' : BuddyPool) (ps : List Nat), Inv s A R →
    mallocMany s ns = some (s', ps) →
    ∃ A' R', Inv s' A' R' ∧ R'.map Prod.fst =
      R.map Prod.fst + (↑(ps.map (fun p => p - AVAIL_SIZE)) : Multiset Nat) := by
  intro ns
  induction ns with
  | nil =>
    intro s A R s' ps h hm
    simp only [mallocMany, Option.some.injEq, Prod.mk.injEq] at hm
    obtain ⟨rfl, rfl⟩ := hm
    exact ⟨A, R, h, by simp⟩
  | cons n ns' ih =>
    intro s A R s' ps h hm
    rw [mallocMany] at hm
    rcases hml : s.malloc n with ⟨s₁, r⟩
    rw [hml] at hm
    rcases r with e | p
    · simp at hm
    · simp only [] at hm
      rcases hrest : mallocMany s₁ ns' with _ | ⟨s₂, ps'⟩
      · rw [hrest] at hm
        simp at hm
      · rw [hrest] at hm
        simp only [Option.some.injEq, Prod.mk.injEq] at hm
        obtain ⟨rfl, rfl⟩ := hm
        rw [malloc.eq_def] at hml
        rcases hmk : s.malloc_kval (b_to_k (n + AVAIL_SIZE)) with ⟨s₃, r₃⟩
        rw [hmk] at hml
        rcases r₃ with e₃ | b
        · simp at hml
        · simp only [Prod.mk.injEq, Except.ok.injEq] at hml
          obtain ⟨rfl, rfl⟩ := hml
          obtain ⟨A₁, h₁⟩ := h.malloc_kval_ok hmk
          obtain ⟨A', R', hinv, hmap⟩ := ih _ A₁ _ _ _ h₁ hrest
          refine ⟨A', R', hinv, ?_⟩
          rw [hmap]
          simp only [Multiset.map_cons, List.map_cons, Multiset.cons_coe]
          show b ::ₘ R.map Prod.fst + _ = _
          rw [Nat.add_sub_cancel]
          rw [Multiset.cons_add, ← Multiset.add_cons]
          rfl

/-- On a fresh pool, `init` produces the single available leaf covering
the whole region. -/
theorem init_inv (size : Nat) :
    Inv ((new size).init) {(0, (new size).kval_m)} 0 := by
  have havail : ∀ k, (((new size).init).avail k).blocks =
      if k = (new size).kval_m then [0] else [] := by
    intro k
    by_cases h2 : k = (new size).kval_m
    · simp [init, h2]
    · by_cases h1 : k ≤ (new size).kval_m
      · simp [init, h1, h2]
      · have hKd : (new size).kval_m = newKval size := rfl
        rw [hKd] at h1 h2
        simp [init, new, h1, h2]
  refine ⟨Shape.availLeaf 0 _, ?_, ?_, ?_⟩
  · intro k b
    rw [havail]
    by_cases h2 : k = (new size).kval_m
    · subst h2
      by_cases hb : b = 0
      · subst hb
        simp
      · simp [Multiset.count_singleton, hb, List.count_singleton]
    · simp [Multiset.count_singleton, h2]
  · intro x hx
    simp only [Multiset.mem_singleton] at hx
    subst hx
    show upd (new size).headers 0 ⟨BLOCK_AVAIL, (new size).kval_m⟩ 0 = _
    rw [upd_same]
  · intro x hx
    simp at hx

end BuddyPool

/-- C4: for every sequence of successful `malloc` calls on a freshly
initialized pool followed by freeing every returned pointer (in any
order), the pool again satisfies the post-init topology: `avail[k]` empty
for all `k < kval_m` and `avail[kval_m]` holding exactly the single block
at `base`. -/
theorem c4_full_after_drain (size : Nat) (ns : List Nat) (s₁ : BuddyPool)
    (ps : List Nat)
    (h : BuddyPool.mallocMany ((BuddyPool.new size).init) ns = some (s₁, ps))
    (qs : List Nat) (hq : qs.Perm ps) :
    BuddyPool.isFull (BuddyPool.freeMany s₁ qs) := by
  obtain ⟨A', R', hinv, hmap⟩ :=
    BuddyPool.mallocMany_inv ns _ _ _ _ _ (BuddyPool.init_inv size) h
  have hmap2 : R'.map Prod.fst =
      (↑(qs.map (fun q => q - AVAIL_SIZE)) : Multiset Nat) := by
    rw [hmap]
    simp only [Multiset.map_zero, zero_add]
    exact (Multiset.coe_eq_coe.2 (hq.map _)).symm
  obtain ⟨A'', hfinal⟩ := BuddyPool.freeMany_inv qs _ A' R' hinv hmap2
  have hA : A'' = {(0, (BuddyPool.freeMany s₁ qs).kval_m)} :=
    hfinal.shape.all_avail
  constructor
  · intro k hk
    have hcount : ∀ b,
        ((BuddyPool.freeMany s₁ qs).avail k).blocks.count b = 0 := by
      intro b
      rw [hfinal.lists, hA, Multiset.count_singleton, if_neg]
      simp only [Prod.mk.injEq, not_and]
      intro hb
      omega
    rcases hnil : ((BuddyPool.freeMany s₁ qs).avail k).blocks with _ | ⟨a, l⟩
    · rfl
    · exfalso
      have := hcount a
      rw [hnil] at this
      simp at this
  · have hc0 : ((BuddyPool.freeMany s₁ qs).avail
        (BuddyPool.freeMany s₁ qs).kval_m).blocks.count 0 = 1 := by
      rw [hfinal.lists, hA, Multiset.count_singleton, if_pos rfl]
    have hmem : ∀ b ∈ ((BuddyPool.freeMany s₁ qs).avail
        (BuddyPool.freeMany s₁ qs).kval_m).blocks, b = 0 := by
      intro b hb
      by_contra hbne
      have hz : ((BuddyPool.freeMany s₁ qs).avail
          (BuddyPool.freeMany s₁ qs).kval_m).blocks.count b = 0 := by
        rw [hfinal.lists, hA, Multiset.count_singleton, if_neg]
        simp only [Prod.mk.injEq, not_and]
        intro hb'
        exact absurd hb' hbne
      rw [List.count_eq_zero] at hz
      exact hz hb
    have hrep := List.eq_replicate_length.2 hmem
    have hlen : ((BuddyPool.freeMany s₁ qs).avail
        (BuddyPool.freeMany s₁ qs).kval_m).blocks.length = 1 := by
      have h1 := hc0
      rw [hrep, List.count_replicate_self] at h1
      exact h1
    rw [hrep, hlen]
    rfl

/-- Witness for C4 at the empty request sequence. -/
theorem c4_full_after_drain_witness :
    BuddyPool.mallocMany ((BuddyPool.new 0).init) [] =
        some ((BuddyPool.new 0).init, []) ∧
      ([] : List Nat).Perm [] ∧
      BuddyPool.isFull (BuddyPool.freeMany ((BuddyPool.new 0).init) []) :=
  ⟨rfl, List.Perm.nil, c4_full_after_drain 0 [] _ [] rfl [] List.Perm.nil⟩
